import Mathlib

/-!
Verification development for the candl wiki document-graph engine
(`server/wiki.go`).

Strings are modeled as `List Char` (Go strings are byte slices of UTF-8;
codepoint order coincides with byte order, and every byte-level operation
the code performs is character-aligned on the inputs considered).  Go maps
are modeled as association lists whose operations mirror Go map semantics
(lookup of a missing key returns `none` where Go returns the zero value;
dereferencing such a `nil` page pointer, or inserting into a `nil` inner
map, is modeled as the `panicked` error outcome).  The filesystem is an
association list from paths to contents; `filepath.Join(dir, name+".md")`
is modeled as plain separator concatenation (no path cleaning).  The
goldmark renderer is external to the engine and is treated as an opaque
total conversion: a `Page` stores the rewritten text that is handed to it.
The concurrent fan-out of `loadPages` is modeled as a sequential fold over
the walked file list: the collected map and the "first observed failure
aborts the batch" behaviour do not depend on the interleaving, except for
which of several same-named files wins, which the claims do not fix.
-/

namespace Candl

/-- Strings of the Go program, as lists of characters. -/
abbrev Str := List Char

/-- Coercion from Lean string literals, for concrete inputs. -/
def str (s : String) : Str := s.data

/-- Unicode white space, as used by `strings.TrimSpace` / `unicode.IsSpace`. -/
def isSpace (c : Char) : Bool :=
  decide (c.toNat = 0x20 ∨ (0x9 ≤ c.toNat ∧ c.toNat ≤ 0xd) ∨ c.toNat = 0x85 ∨
    c.toNat = 0xa0 ∨ c.toNat = 0x1680 ∨ (0x2000 ≤ c.toNat ∧ c.toNat ≤ 0x200a) ∨
    c.toNat = 0x2028 ∨ c.toNat = 0x2029 ∨ c.toNat = 0x202f ∨ c.toNat = 0x205f ∨
    c.toNat = 0x3000)

/-- `strings.TrimSpace`: drop white space from both ends. -/
def trimSpace (s : Str) : Str :=
  ((s.dropWhile isSpace).reverse.dropWhile isSpace).reverse

/-- Characters that end the target group `[^\]|]+` of `linkRe`. -/
def stopFree (c : Char) : Bool := decide (¬(c = ']' ∨ c = '|'))

/-- Characters allowed in the label group `[^\]]+` of `linkRe`. -/
def labelFree (c : Char) : Bool := decide (¬(c = ']'))

/-- The submatches of one `linkRe` occurrence: `sub[1]` (the raw target,
never containing `]` or `|`) and `sub[2]` (the raw label; `[]` when the
`|label` segment is absent, exactly as Go's empty submatch string). -/
structure WikiMatch where
  target : Str
  label : Str
deriving DecidableEq, Repr

/-- The raw text `sub[0]` of a `linkRe` occurrence. -/
def wmRaw (m : WikiMatch) : Str :=
  str "[[" ++ m.target ++ (if m.label = [] then str "]]" else '|' :: m.label ++ str "]]")

/-- Attempt to match `linkRe` = `\[\[([^\]|]+)(?:\|([^\]]+))?\]\]` at the
head of `s`.  The regex is deterministic here: both character classes are
greedy and exclude their closing delimiters, so the RE2 match at a given
start position is unique.  Returns the submatches and the rest of the
input after the occurrence. -/
def matchAt (s : Str) : Option (WikiMatch × Str) :=
  match s with
  | '[' :: '[' :: rest =>
    if rest.takeWhile stopFree = [] then none
    else
      match rest.dropWhile stopFree with
      | '|' :: r2 =>
        if r2.takeWhile labelFree = [] then none
        else
          match r2.dropWhile labelFree with
          | ']' :: ']' :: r4 => some (⟨rest.takeWhile stopFree, r2.takeWhile labelFree⟩, r4)
          | _ => none
      | ']' :: ']' :: r4 => some (⟨rest.takeWhile stopFree, []⟩, r4)
      | _ => none
  | _ => none

/-- One segment of a text scanned for `linkRe` occurrences: either a single
literal character (no match starts here) or a whole occurrence. -/
inductive Seg where
  | lit (c : Char)
  | link (m : WikiMatch)
deriving DecidableEq, Repr

/-- Fuelled scanner: splits a text into the successive non-overlapping
leftmost `linkRe` occurrences and the literal characters between them,
exactly as Go's `ReplaceAll*Func` traverses it. -/
def scanF : Nat → Str → List Seg
  | 0, _ => []
  | _ + 1, [] => []
  | fuel + 1, c :: cs =>
    match matchAt (c :: cs) with
    | some (m, rest) => .link m :: scanF fuel rest
    | none => .lit c :: scanF fuel cs

/-- Scan a text into `linkRe` occurrences and literal characters. -/
def scan (s : Str) : List Seg := scanF s.length s

/-- The three characters `linkRe` treats specially. -/
def special (c : Char) : Bool := decide (c = '[' ∨ c = ']' ∨ c = '|')

/-- Skeleton of a text: keep the special characters `[` `]` `|`, collapse
every maximal run of other characters to a single `a`.  `matchAt` only
inspects which special characters occur where and whether the runs between
them are empty, so texts with equal skeletons match identically. -/
def skel : Str → Str
  | [] => []
  | [c] => if special c then [c] else ['a']
  | c :: d :: rest =>
    if special c then c :: skel (d :: rest)
    else if special d then 'a' :: skel (d :: rest)
    else skel (d :: rest)


/-- The inline-link text `[label](target)` substituted by `loadPage` for one
occurrence (the body of the `ReplaceAllStringFunc` closure; `len(sub) >= 2`
always holds for a `linkRe` match, so the `return m` fallback is dead code). -/
def linkText (m : WikiMatch) : Str :=
  let target := trimSpace m.target
  let label := trimSpace m.label
  let label := if label = [] then target else label
  '[' :: label ++ ']' :: '(' :: target ++ [')']

/-- Text produced by one scanned segment under `loadPage`'s rewriting. -/
def segText : Seg → Str
  | .lit c => [c]
  | .link m => linkText m

/-- The rewritten text handed to the renderer by `loadPage`. -/
def processText (s : Str) : Str := ((scan s).map segText).flatten

/-- `p.Links[target] = true`: insert into the set of outbound names. -/
def addLink (links : List Str) (t : Str) : List Str :=
  if t ∈ links then links else links ++ [t]

/-- Accumulate the outbound link set over the scanned segments. -/
def collectLinks : List Seg → List Str → List Str
  | [], acc => acc
  | .lit _ :: ss, acc => collectLinks ss acc
  | .link m :: ss, acc => collectLinks ss (addLink acc (trimSpace m.target))

/-- The outbound link set extracted from a raw text by `loadPage`. -/
def extractLinks (s : Str) : List Str := collectLinks (scan s) []

/-- Text produced by one scanned segment under `renameWikilinks`: an
occurrence whose trimmed target equals `oldName` is rewritten to target
`newName` keeping the raw label; everything else is returned verbatim. -/
def renameSeg (oldName newName : Str) : Seg → Str
  | .lit c => [c]
  | .link m =>
    if trimSpace m.target ≠ oldName then wmRaw m
    else if m.label ≠ [] then str "[[" ++ newName ++ '|' :: m.label ++ str "]]"
    else str "[[" ++ newName ++ str "]]"

/-- `renameWikilinks(content, oldName, newName)` from `wiki.go`. -/
def renameWikilinks (content : Str) (oldName newName : Str) : Str :=
  ((scan content).map (renameSeg oldName newName)).flatten

/-- The segment-level effect of `renameWikilinks` on the scanned structure:
an occurrence whose trimmed target equals `oldName` gets target `newName`
with its raw label kept byte for byte; every other segment is unchanged. -/
def renameMatch (oldName newName : Str) : Seg → Seg
  | .lit c => .lit c
  | .link m =>
    if trimSpace m.target ≠ oldName then .link m else .link ⟨newName, m.label⟩

/-- Title derivation in `loadPage`: if the raw text has the prefix `"# "`
and `strings.Index(raw, "\n") > 0`, the title is the trimmed text between
them; otherwise the `Title` field keeps Go's zero value `""`. -/
def titleOf (raw : Str) : Str :=
  match raw.findIdx? (fun c => c == '\n') with
  | some i => if raw.take 2 = str "# " ∧ 0 < i then trimSpace ((raw.take i).drop 2) else []
  | none => []

/-- One character of the identifier grammar `^[a-zA-Z0-9_+-]+$`. -/
def isNameChar (c : Char) : Bool :=
  decide (('a' ≤ c ∧ c ≤ 'z') ∨ ('A' ≤ c ∧ c ≤ 'Z') ∨ ('0' ≤ c ∧ c ≤ '9') ∨
    c = '_' ∨ c = '+' ∨ c = '-')

/-- `isValidName` from the HTTP API layer: the full identifier grammar. -/
def isValidName (name : Str) : Bool :=
  decide (name ≠ []) && name.all isNameChar

/-- Go string comparison `a < b` (lexicographic; UTF-8 byte order equals
code-point order). -/
def lexLt : Str → Str → Bool
  | [], [] => false
  | [], _ :: _ => true
  | _ :: _, [] => false
  | a :: as, b :: bs =>
    if a.toNat < b.toNat then true
    else if b.toNat < a.toNat then false
    else lexLt as bs

/-- `len(a) > 0 && unicode.IsDigit(rune(a[0]))`: the first byte of a Go
string is an ASCII digit exactly when the first character is `0`–`9`
(a non-ASCII first character starts with a byte above `0x7f`, which
`unicode.IsDigit` rejects). -/
def beginsNum (a : Str) : Bool :=
  match a with
  | [] => false
  | c :: _ => c.isDigit

/-- The comparator `sortBacklinks` from `wiki.go`. -/
def sortBacklinks (a b : Str) : Int :=
  let aBeginsNum := beginsNum a
  let bBeginsNum := beginsNum b
  if !aBeginsNum && bBeginsNum then -1
  else if aBeginsNum && !bBeginsNum then 1
  else if !aBeginsNum && !bBeginsNum then
    -- Both are alphabetic - normal sort
    if lexLt a b then -1 else if lexLt b a then 1 else 0
  else
    -- Both are numeric - reverse sort (highest to lowest)
    if lexLt a b then 1 else if lexLt b a then -1 else 0

/-- Insert into a list sorted by a comparator. -/
def insertSorted (cmp : Str → Str → Int) (x : Str) : List Str → List Str
  | [] => [x]
  | y :: ys => if cmp x y ≤ 0 then x :: y :: ys else y :: insertSorted cmp x ys

/-- `slices.SortFunc`: modeled as insertion sort.  For a comparator that is
a total order (C7) and distinct elements the sorted list is unique, so the
model agrees with Go's unstable pattern-defeating quicksort. -/
def sortFunc (cmp : Str → Str → Int) (l : List Str) : List Str :=
  l.foldr (insertSorted cmp) []

/-- A parsed wiki page (`Page` in `wiki.go`).  `Processed` holds the
rewritten text handed to the opaque external renderer in place of the
rendered `HTML` field. -/
structure Page where
  Name : Str
  Raw : Str
  Title : Str
  Processed : Str
  Links : List Str
  Backlinks : List Str
deriving DecidableEq, Repr

/-- Association list with string keys: the model of a Go map. -/
def alookup {β : Type} : List (Str × β) → Str → Option β
  | [], _ => none
  | (k', v) :: rest, k => if k' = k then some v else alookup rest k

/-- Go map assignment `m[k] = v`. -/
def ainsert {β : Type} : List (Str × β) → Str → β → List (Str × β)
  | [], k, v => [(k, v)]
  | (k', v') :: rest, k, v =>
    if k' = k then (k, v) :: rest else (k', v') :: ainsert rest k v

/-- Go map `delete(m, k)`. -/
def aerase {β : Type} : List (Str × β) → Str → List (Str × β)
  | [], _ => []
  | (k', v') :: rest, k => if k' = k then rest else (k', v') :: aerase rest k

/-- The key set of a map. -/
def keysOf {β : Type} (m : List (Str × β)) : List Str := m.map (·.1)

/-- The page map `map[string]*Page`. -/
abbrev PageMap := List (Str × Page)

/-- The backing directory: path → file contents. -/
abbrev FS := List (Str × Str)

/-- Store errors: a failed storage operation, or a Go runtime panic
(nil-map insert / nil-pointer dereference). -/
inductive WErr where
  | ioError
  | panicked
deriving DecidableEq, Repr

/-- `os.ReadFile`. -/
def fsRead (fs : FS) (path : Str) : Option Str := alookup fs path

/-- `os.WriteFile` (always succeeds in the model). -/
def fsWrite (fs : FS) (path content : Str) : FS := ainsert fs path content

/-- `os.Rename`: fails if the source is absent, overwrites the target. -/
def fsRename (fs : FS) (oldPath newPath : Str) : Option FS :=
  match alookup fs oldPath with
  | none => none
  | some content => some (ainsert (aerase fs oldPath) newPath content)

/-- The set of referrers accumulated for `name` by `buildBacklinks`:
pages whose link set contains `name` (when `name` is a key), and every
page for the reserved name `"search"`. -/
def pageLinkers (pages : PageMap) (name : Str) : List Str :=
  if name = str "search" then keysOf pages
  else (pages.filter (fun e => decide (name ∈ e.2.Links))).map (·.1)

/-- `buildBacklinks` from `wiki.go`.  If the map is non-empty but has no
`"search"` key, the write `pageLinkers["search"][linker] = struct{}{}`
inserts into a nil inner map: a runtime panic, modeled as `none`. -/
def buildBacklinks (pages : PageMap) : Option PageMap :=
  if pages.isEmpty then some pages
  else if (alookup pages (str "search")).isNone then none
  else some (pages.map (fun e =>
    (e.1, { e.2 with Backlinks := sortFunc sortBacklinks (pageLinkers pages e.1) })))

/-- `filepath.Join(w.Dir, name+".md")`, modeled as plain concatenation. -/
def getPagePath (dir name : Str) : Str := dir ++ '/' :: (name ++ str ".md")

/-- Helper for `filepath.Base`: accumulate the current path component. -/
def baseAux : Str → Str → Str
  | [], acc => acc.reverse
  | c :: cs, acc => if c = '/' then baseAux cs [] else baseAux cs (c :: acc)

/-- `filepath.Base`: the final path component. -/
def baseName (p : Str) : Str := baseAux p []

/-- `strings.TrimSuffix`. -/
def trimSuffix (s suffix : Str) : Str :=
  if suffix.isSuffixOf s then s.take (s.length - suffix.length) else s

/-- `loadPage` from `wiki.go`: derive the name from the base filename,
read the raw bytes, derive the title, extract and rewrite wikilinks.  The
external renderer (`md.Convert`) is opaque and never fails in the model. -/
def loadPage (fs : FS) (path : Str) : Except WErr Page :=
  let name := trimSuffix (baseName path) (str ".md")
  match fsRead fs path with
  | none => .error .ioError
  | some b =>
    .ok { Name := name, Raw := b, Title := titleOf b,
          Processed := processText b, Links := extractLinks b, Backlinks := [] }

/-- The page record `loadPage` produces for a file whose read yields `C`
(the `.ok` payload above, as a function of the path and the content). -/
def writtenPage (path C : Str) : Page :=
  { Name := trimSuffix (baseName path) (str ".md"), Raw := C, Title := titleOf C,
    Processed := processText C, Links := extractLinks C, Backlinks := [] }

/-- Load every walked file into the page map, keyed by `page.Name`; the
first failure aborts the batch. -/
def loadPagesAux (fs : FS) : List Str → PageMap → Except WErr PageMap
  | [], acc => .ok acc
  | p :: ps, acc =>
    match loadPage fs p with
    | .error e => .error e
    | .ok page => loadPagesAux fs ps (ainsert acc page.Name page)

/-- The synthesized `/search` page (`Page{Name: "search", Raw: "# Search"}`;
all other fields keep their zero values). -/
def searchPage : Page :=
  { Name := str "search", Raw := str "# Search", Title := [], Processed := [],
    Links := [], Backlinks := [] }

/-- The `"search"`-synthesis step of `loadPages`: add the reserved page if
no file provided one. -/
def withSearch (pages : PageMap) : PageMap :=
  if (alookup pages (str "search")).isNone then ainsert pages (str "search") searchPage
  else pages

/-- `loadPages` from `wiki.go`.  `mdFiles` is the list of `.md` paths found
by the recursive `filepath.WalkDir`; the concurrent fan-in is modeled as a
sequential fold (see the module comment); backlinks are built after the
reserved `"search"` page is ensured. -/
def loadPages (mdFiles : List Str) (fs : FS) : Except WErr PageMap :=
  match loadPagesAux fs mdFiles [] with
  | .error e => .error e
  | .ok pages =>
    match buildBacklinks (withSearch pages) with
    | some m => .ok m
    | none => .error .panicked

/-- The graph store (`Wiki` in `wiki.go`); the lock and template are
external to the engine. -/
structure Wiki where
  Pages : PageMap
  Dir : Str
deriving DecidableEq, Repr

/-- `(*Wiki).Update`: full reload.  On failure the previous page map is
kept; on success the whole map is replaced. -/
def updateOp (w : Wiki) (mdFiles : List Str) (fs : FS) : Option WErr × Wiki × FS :=
  match loadPages mdFiles fs with
  | .error e => (some e, w, fs)
  | .ok pages => (none, { w with Pages := pages }, fs)

/-- `(*Wiki).UpdateSingle`: reload one page, then rebuild all backlinks. -/
def updateSingle (w : Wiki) (name : Str) (fs : FS) : Option WErr × Wiki × FS :=
  match loadPage fs (getPagePath w.Dir name) with
  | .error e => (some e, w, fs)
  | .ok page =>
    match buildBacklinks (ainsert w.Pages name page) with
    | none => (some .panicked, { w with Pages := ainsert w.Pages name page }, fs)
    | some m2 => (none, { w with Pages := m2 }, fs)

/-- `(*Wiki).WritePage`. -/
def writePage (w : Wiki) (name content : Str) (fs : FS) : FS :=
  fsWrite fs (getPagePath w.Dir name) content

/-- The in-memory key move of `RenamePage`:
`Pages[newName] = Pages[oldName]; delete(Pages, oldName)` (in that order;
the moved page keeps its old `Name` field). -/
def renameMoved (pages : PageMap) (oldName newName : Str) (pOld : Page) : PageMap :=
  aerase (ainsert pages newName pOld) oldName

/-- The rename propagation loop of `(*Wiki).RenamePage`: for each name in
the renamed page's backlinks, rewrite its raw content on disk and reload
it.  A missing page map entry is a nil-pointer dereference (panic). -/
def renameLoop (dir oldName newName : Str) :
    List Str → PageMap → FS → Option WErr × PageMap × FS
  | [], m, fs => (none, m, fs)
  | n :: ns, m, fs =>
    match alookup m n with
    | none => (some .panicked, m, fs)
    | some linkingPage =>
      let newContent := renameWikilinks linkingPage.Raw oldName newName
      let fs2 := fsWrite fs (getPagePath dir n) newContent
      match loadPage fs2 (getPagePath dir n) with
      | .error e => (some e, m, fs2)
      | .ok page => renameLoop dir oldName newName ns (ainsert m n page) fs2

/-- `(*Wiki).RenamePage` from `wiki.go`: rename the file, move the map
entry (`Pages[newName] = Pages[oldName]; delete(Pages, oldName)` — the
`Name` field is not updated), rewrite and reload every page listed in the
renamed page's backlinks, then rebuild all backlinks.  A failure mid-loop
is returned with the partial state kept, exactly as in the source. -/
def renamePage (w : Wiki) (oldName newName : Str) (fs : FS) : Option WErr × Wiki × FS :=
  match fsRename fs (getPagePath w.Dir oldName) (getPagePath w.Dir newName) with
  | none => (some .ioError, w, fs)
  | some fs1 =>
    match alookup w.Pages oldName with
    | none => (some .panicked, w, fs1)
    | some pOld =>
      match alookup (renameMoved w.Pages oldName newName pOld) newName with
      | none => (some .panicked, { w with Pages := renameMoved w.Pages oldName newName pOld }, fs1)
      | some pNew =>
        match renameLoop w.Dir oldName newName pNew.Backlinks
            (renameMoved w.Pages oldName newName pOld) fs1 with
        | (some e, m, fs2) => (some e, { w with Pages := m }, fs2)
        | (none, m, fs2) =>
          match buildBacklinks m with
          | none => (some .panicked, { w with Pages := m }, fs2)
          | some m2 => (none, { w with Pages := m2 }, fs2)

/-- A mutating store operation, for stating invariants over all of them. -/
inductive StoreOp where
  | update (mdFiles : List Str)
  | updateSingle (name : Str)
  | renamePage (oldName newName : Str)

/-- Run one store operation. -/
def runOp (op : StoreOp) (w : Wiki) (fs : FS) : Option WErr × Wiki × FS :=
  match op with
  | .update mdFiles => updateOp w mdFiles fs
  | .updateSingle name => Candl.updateSingle w name fs
  | .renamePage oldName newName => Candl.renamePage w oldName newName fs

/-- HTTP statuses produced by the edit handler. -/
inductive HStatus where
  | badRequest
  | internalServerError
  | seeOther
deriving DecidableEq, Repr

/-- The rename-relevant slice of the HTTP edit handler `servePostEdit`
(`server` package): validate the URL name, validate and apply a rename when
the submitted name differs, then write the body and reload the page. -/
def servePostEdit (w : Wiki) (fs : FS) (urlName formName body : Str) :
    HStatus × Wiki × FS :=
  if ¬isValidName urlName then (.badRequest, w, fs)
  else if formName ≠ urlName ∧ ¬isValidName formName then (.badRequest, w, fs)
  else
    let afterRename : Option WErr × Wiki × FS :=
      if formName ≠ urlName then renamePage w urlName formName fs
      else (none, w, fs)
    match afterRename with
    | (some _, w1, fs1) => (.internalServerError, w1, fs1)
    | (none, w1, fs1) =>
      let fs2 := writePage w1 formName body fs1
      match updateSingle w1 formName fs2 with
      | (some _, w2, fs3) => (.internalServerError, w2, fs3)
      | (none, w2, fs3) => (.seeOther, w2, fs3)

/-- A page value with given name, raw content, links and backlinks, used to
build concrete store states for the test instances (title and rewritten
text are irrelevant to those instances and left empty). -/
def mkPage (name raw : Str) (links backlinks : List Str) : Page :=
  { Name := name, Raw := raw, Title := [], Processed := [], Links := links,
    Backlinks := backlinks }

/-- Concrete three-page map for exercising `buildBacklinks`: `a` links to
`b`. -/
def cw2 : PageMap :=
  [(str "a", mkPage (str "a") [] [str "b"] []),
   (str "b", mkPage (str "b") [] [] []),
   (str "search", mkPage (str "search") [] [] [])]

/-- The backlink map computed from `cw2`. -/
def cw2built : PageMap :=
  [(str "a", mkPage (str "a") [] [str "b"] []),
   (str "b", mkPage (str "b") [] [] [str "a"]),
   (str "search", mkPage (str "search") [] [] [str "a", str "b", str "search"])]

/-- A successful `matchAt` yields well-formed submatches, consumes exactly
`wmRaw` from the input, and consumes at least five characters. -/
theorem matchAt_spec {s : Str} {m : WikiMatch} {r : Str} (h : matchAt s = some (m, r)) :
    m.target ≠ [] ∧ (∀ c ∈ m.target, stopFree c = true) ∧
    (m.label = [] ∨ (m.label ≠ [] ∧ ∀ c ∈ m.label, labelFree c = true)) ∧
    s = wmRaw m ++ r ∧ r.length + 5 ≤ s.length := by
  unfold matchAt at h
  split at h
  · rename_i rest
    have hrest := (List.takeWhile_append_dropWhile (p := stopFree) (l := rest)).symm
    split at h
    · exact absurd h (by simp)
    · rename_i ht
      split at h
      · -- the `|label` alternative
        rename_i r2 heq
        rw [heq] at hrest
        have hr2 := (List.takeWhile_append_dropWhile (p := labelFree) (l := r2)).symm
        split at h
        · exact absurd h (by simp)
        · rename_i hl
          split at h
          · rename_i r4 heq2
            rw [heq2] at hr2
            injection h with h1
            cases h1
            refine ⟨ht, fun c hc => List.mem_takeWhile_imp hc,
              .inr ⟨hl, fun c hc => List.mem_takeWhile_imp hc⟩, ?_, ?_⟩
            · conv_lhs => rw [hrest, hr2]
              simp only [wmRaw, str]
              rw [if_neg hl]
              simp
            · rw [hrest, hr2]
              have h1 : 1 ≤ (rest.takeWhile stopFree).length :=
                List.length_pos.mpr ht
              have h2 : 1 ≤ (r2.takeWhile labelFree).length :=
                List.length_pos.mpr hl
              simp only [List.length_cons, List.length_append]
              omega
          · exact absurd h (by simp)
      · -- the plain `]]` close
        rename_i r4 heq
        rw [heq] at hrest
        injection h with h1
        cases h1
        refine ⟨ht, fun c hc => List.mem_takeWhile_imp hc, .inl rfl, ?_, ?_⟩
        · conv_lhs => rw [hrest]
          simp [wmRaw, str]
        · rw [hrest]
          have h1 : 1 ≤ (rest.takeWhile stopFree).length :=
            List.length_pos.mpr ht
          simp only [List.length_cons, List.length_append]
          omega
      · exact absurd h (by simp)
  · exact absurd h (by simp)

/-- The scanner ignores its fuel argument as long as it is at least the
length of the input. -/
theorem scanF_nil (f : Nat) : scanF f [] = [] := by
  cases f <;> rfl

/-- One step of the fuelled scanner. -/
theorem scanF_cons (f : Nat) (c : Char) (cs : Str) :
    scanF (f + 1) (c :: cs) =
      match matchAt (c :: cs) with
      | some (m, rest) => .link m :: scanF f rest
      | none => .lit c :: scanF f cs := rfl

/-- Fuel irrelevance for the scanner. -/
theorem scanF_fuel : ∀ f g : Nat, ∀ s : Str, s.length ≤ f → s.length ≤ g →
    scanF f s = scanF g s := by
  intro f
  induction f with
  | zero =>
    intro g s hf _
    have : s = [] := List.eq_nil_of_length_eq_zero (Nat.le_zero.mp hf)
    subst this
    rw [scanF_nil, scanF_nil]
  | succ f ih =>
    intro g s hf hg
    match s with
    | [] => rw [scanF_nil, scanF_nil]
    | c :: cs =>
      match g with
      | 0 => simp at hg
      | g' + 1 =>
        cases hm : matchAt (c :: cs) with
        | none =>
          simp only [List.length_cons] at hf hg
          simp only [scanF_cons, hm]
          rw [ih g' cs (by omega) (by omega)]
        | some pr =>
          obtain ⟨m, rest⟩ := pr
          have hlen := (matchAt_spec hm).2.2.2.2
          simp only [List.length_cons] at hf hg hlen
          simp only [scanF_cons, hm]
          rw [ih g' rest (by omega) (by omega)]

/-- `scan` on the empty text. -/
theorem scan_nil : scan [] = [] := rfl

/-- `scan` when a `linkRe` occurrence starts at the head. -/
theorem scan_cons_of_some {c : Char} {cs : Str} {m : WikiMatch} {rest : Str}
    (h : matchAt (c :: cs) = some (m, rest)) :
    scan (c :: cs) = .link m :: scan rest := by
  have hlen := (matchAt_spec h).2.2.2.2
  simp only [List.length_cons] at hlen
  simp only [scan, List.length_cons, scanF_cons, h]
  rw [scanF_fuel cs.length rest.length rest (by omega) (by omega)]

/-- `scan` when no occurrence starts at the head. -/
theorem scan_cons_of_none {c : Char} {cs : Str} (h : matchAt (c :: cs) = none) :
    scan (c :: cs) = .lit c :: scan cs := by
  simp only [scan, List.length_cons, scanF_cons, h]

/-- Reading back a just-assigned key. -/
theorem alookup_ainsert_self {β : Type} (m : List (Str × β)) (k : Str) (v : β) :
    alookup (ainsert m k v) k = some v := by
  induction m with
  | nil => simp [ainsert, alookup]
  | cons e rest ih =>
    obtain ⟨k', v'⟩ := e
    by_cases h : k' = k
    · subst h; simp [ainsert, alookup]
    · simp [ainsert, alookup, h, ih]

/-- Assigning one key leaves the others unchanged. -/
theorem alookup_ainsert_ne {β : Type} {m : List (Str × β)} {k k2 : Str} (v : β)
    (h : k2 ≠ k) : alookup (ainsert m k v) k2 = alookup m k2 := by
  induction m with
  | nil => simp [ainsert, alookup, Ne.symm h]
  | cons e rest ih =>
    obtain ⟨k', v'⟩ := e
    by_cases hk : k' = k
    · subst hk
      simp [ainsert, alookup, Ne.symm h]
    · simp only [ainsert, if_neg hk, alookup]
      by_cases hk2 : k' = k2 <;> simp [hk2, ih]

/-- Deleting one key leaves the others unchanged. -/
theorem alookup_aerase_ne {β : Type} {m : List (Str × β)} {k k2 : Str}
    (h : k2 ≠ k) : alookup (aerase m k) k2 = alookup m k2 := by
  induction m with
  | nil => simp [aerase]
  | cons e rest ih =>
    obtain ⟨k', v'⟩ := e
    by_cases hk : k' = k
    · subst hk
      simp [aerase, alookup, Ne.symm h]
    · simp only [aerase, if_neg hk, alookup]
      by_cases hk2 : k' = k2 <;> simp [hk2, ih]

/-- A successful lookup exhibits a binding of the list. -/
theorem alookup_mem {β : Type} {m : List (Str × β)} {k : Str} {v : β}
    (h : alookup m k = some v) : (k, v) ∈ m := by
  induction m with
  | nil => simp [alookup] at h
  | cons e rest ih =>
    obtain ⟨k', v'⟩ := e
    by_cases hk : k' = k
    · subst hk
      have hv : v' = v := by simpa [alookup] using h
      subst hv
      exact List.mem_cons_self _ _
    · simp only [alookup, if_neg hk] at h
      exact List.mem_cons_of_mem _ (ih h)

/-- Key membership is lookup success. -/
theorem mem_keysOf_iff {β : Type} {m : List (Str × β)} {k : Str} :
    k ∈ keysOf m ↔ (alookup m k).isSome := by
  induction m with
  | nil => simp [keysOf, alookup]
  | cons e rest ih =>
    obtain ⟨k', v'⟩ := e
    simp only [keysOf, List.map_cons, List.mem_cons, alookup]
    by_cases hk : k' = k
    · subst hk
      rw [if_pos rfl]
      exact iff_of_true (Or.inl rfl) rfl
    · rw [if_neg hk]
      simp only [keysOf] at ih
      constructor
      · rintro (hh | hh)
        · exact absurd hh.symm hk
        · exact ih.mp hh
      · intro hh
        exact Or.inr (ih.mpr hh)

/-- A successful lookup means a non-empty list. -/
theorem alookup_ne_nil {β : Type} {m : List (Str × β)} {k : Str} {v : β}
    (h : alookup m k = some v) : m ≠ [] := by
  intro hm
  subst hm
  simp [alookup] at h

/-- Transforming every value in place preserves all keys. -/
theorem keysOf_map_transform {f : Str → Page → Page} (m : PageMap) :
    keysOf (m.map fun e => (e.1, f e.1 e.2)) = keysOf m := by
  unfold keysOf
  rw [List.map_map]
  rfl

/-- Lookup after transforming every value in place. -/
theorem alookup_map_transform {f : Str → Page → Page} (m : PageMap) (k : Str) :
    alookup (m.map fun e => (e.1, f e.1 e.2)) k = (alookup m k).map (f k) := by
  induction m with
  | nil => rfl
  | cons e rest ih =>
    by_cases hk : e.1 = k
    · simp [alookup, hk]
    · simp [alookup, hk, ih]

/-- Membership in an insertion step. -/
theorem mem_insertSorted {cmp : Str → Str → Int} {x y : Str} {l : List Str} :
    x ∈ insertSorted cmp y l ↔ x = y ∨ x ∈ l := by
  induction l with
  | nil => simp [insertSorted]
  | cons z zs ih =>
    simp only [insertSorted]
    split
    · simp
    · simp [ih]
      tauto

/-- Sorting does not change membership. -/
theorem mem_sortFunc {cmp : Str → Str → Int} {x : Str} {l : List Str} :
    x ∈ sortFunc cmp l ↔ x ∈ l := by
  induction l with
  | nil => simp [sortFunc]
  | cons y ys ih =>
    show x ∈ insertSorted cmp y (sortFunc cmp ys) ↔ _
    simp [mem_insertSorted, ih]

/-- The referrers accumulated for the reserved name are all the keys. -/
theorem pageLinkers_search (m : PageMap) : pageLinkers m (str "search") = keysOf m := by
  simp [pageLinkers]

/-- A page whose link set contains an existing name is one of its referrers. -/
theorem mem_pageLinkers_of_links {m : PageMap} {a b : Str} {pa : Page}
    (hb : b ≠ str "search") (hmem : (a, pa) ∈ m) (hl : b ∈ pa.Links) :
    a ∈ pageLinkers m b := by
  simp only [pageLinkers, if_neg hb]
  exact List.mem_map.mpr ⟨(a, pa), List.mem_filter.mpr ⟨hmem, by simpa using hl⟩, rfl⟩

/-- What `buildBacklinks` does to each entry, uniformly over all keys. -/
theorem buildBacklinks_lookup {m m' : PageMap} (h : buildBacklinks m = some m')
    (k : Str) :
    alookup m' k =
      (alookup m k).map (fun p =>
        { p with Backlinks := sortFunc sortBacklinks (pageLinkers m k) }) := by
  unfold buildBacklinks at h
  split at h
  · rename_i hemp
    rw [List.isEmpty_iff] at hemp
    subst hemp
    injection h with h1
    subst h1
    rfl
  · split at h
    · exact absurd h (by simp)
    · injection h with h1
      subst h1
      exact alookup_map_transform
        (f := fun k2 p => { p with Backlinks := sortFunc sortBacklinks (pageLinkers m k2) }) m k

/-- `buildBacklinks` preserves the key set. -/
theorem buildBacklinks_keys {m m' : PageMap} (h : buildBacklinks m = some m') :
    keysOf m' = keysOf m := by
  unfold buildBacklinks at h
  split at h
  · rename_i hemp
    rw [List.isEmpty_iff] at hemp
    subst hemp
    injection h with h1
    subst h1
    rfl
  · split at h
    · exact absurd h (by simp)
    · injection h with h1
      subst h1
      exact keysOf_map_transform
        (f := fun k2 p => { p with Backlinks := sortFunc sortBacklinks (pageLinkers m k2) }) m

/-- A successful `buildBacklinks` on a non-empty map found `"search"`. -/
theorem buildBacklinks_search_exists {m m' : PageMap}
    (h : buildBacklinks m = some m') (hne : m ≠ []) :
    ∃ ps, alookup m (str "search") = some ps := by
  unfold buildBacklinks at h
  split at h
  · rename_i hemp
    rw [List.isEmpty_iff] at hemp
    exact absurd hemp hne
  · split at h
    · exact absurd h (by simp)
    · rename_i hns
      rw [Option.isNone_iff_eq_none] at hns
      cases hs : alookup m (str "search") with
      | none => simp [hs] at hns
      | some ps => exact ⟨ps, rfl⟩

/-- Assigning a key always leaves a non-empty map. -/
theorem ainsert_ne_nil {β : Type} (m : List (Str × β)) (k : Str) (v : β) :
    ainsert m k v ≠ [] := by
  cases m with
  | nil => simp [ainsert]
  | cons e rest =>
    obtain ⟨k', v'⟩ := e
    by_cases h : k' = k <;> simp [ainsert, h]

/-- The rename propagation loop never empties the page map. -/
theorem renameLoop_ne_nil {dir oldName newName : Str} :
    ∀ (bs : List Str) (m : PageMap) (fs : FS) (r : Option WErr) (m' : PageMap) (fs' : FS),
    renameLoop dir oldName newName bs m fs = (r, m', fs') → m ≠ [] → m' ≠ [] := by
  intro bs
  induction bs with
  | nil =>
    intro m fs r m' fs' h hm
    simp only [renameLoop, Prod.mk.injEq] at h
    obtain ⟨-, h2, -⟩ := h
    exact h2 ▸ hm
  | cons n ns ih =>
    intro m fs r m' fs' h hm
    simp only [renameLoop] at h
    cases hn : alookup m n with
    | none =>
      rw [hn] at h
      simp only [Prod.mk.injEq] at h
      obtain ⟨-, h2, -⟩ := h
      exact h2 ▸ hm
    | some linkingPage =>
      simp only [hn] at h
      cases hload : loadPage (fsWrite fs (getPagePath dir n)
          (renameWikilinks linkingPage.Raw oldName newName)) (getPagePath dir n) with
      | error e =>
        simp only [hload, Prod.mk.injEq] at h
        obtain ⟨-, h2, -⟩ := h
        exact h2 ▸ hm
      | ok page =>
        simp only [hload] at h
        exact ih _ _ _ _ _ h (ainsert_ne_nil _ _ _)

/-- `withSearch` always yields a map with a `"search"` entry. -/
theorem withSearch_search (pages : PageMap) :
    ∃ ps, alookup (withSearch pages) (str "search") = some ps := by
  unfold withSearch
  by_cases h : (alookup pages (str "search")).isNone
  · rw [if_pos h]
    exact ⟨searchPage, alookup_ainsert_self _ _ _⟩
  · rw [if_neg h]
    cases hs : alookup pages (str "search") with
    | none => rw [hs] at h; simp at h
    | some ps => exact ⟨ps, rfl⟩

/-- After a successful backlink build whose input contained `"search"`, the
`"search"` entry's backlinks are exactly the keys of the resulting map. -/
theorem search_backlinks_of_build {m m' : PageMap} (h : buildBacklinks m = some m')
    (hs : ∃ ps0, alookup m (str "search") = some ps0) :
    ∃ ps, alookup m' (str "search") = some ps ∧
      ∀ x, x ∈ ps.Backlinks ↔ x ∈ keysOf m' := by
  obtain ⟨ps0, hps0⟩ := hs
  have hl := buildBacklinks_lookup h (str "search")
  rw [hps0, Option.map_some'] at hl
  refine ⟨_, hl, fun x => ?_⟩
  rw [buildBacklinks_keys h]
  simp only [pageLinkers_search]
  exact mem_sortFunc

/-- A successful `loadPages` went through a successful backlink build whose
input contained the `"search"` entry. -/
theorem loadPages_ok_build {mdFiles : List Str} {fs : FS} {pages : PageMap}
    (h : loadPages mdFiles fs = .ok pages) :
    ∃ m1, buildBacklinks m1 = some pages ∧
      ∃ ps0, alookup m1 (str "search") = some ps0 := by
  unfold loadPages at h
  split at h
  · exact absurd h (by simp)
  · rename_i pages0 haux
    split at h
    · rename_i m hb
      injection h with h1
      subst h1
      exact ⟨withSearch pages0, hb, withSearch_search pages0⟩
    · exact absurd h (by simp)

/--
C2: after backlink construction, if a page `b` is a key of the map and its
name occurs in page `a`'s outbound link set, then `a` appears in `b`'s
backlinks.
-/
theorem c2_backlink_correctness {m m' : PageMap} {a b : Str} {pa pb : Page}
    (hbuild : buildBacklinks m = some m')
    (ha : alookup m' a = some pa) (hb : alookup m' b = some pb)
    (hlink : b ∈ pa.Links) : a ∈ pb.Backlinks := by
  have la := buildBacklinks_lookup hbuild a
  have lb := buildBacklinks_lookup hbuild b
  rw [ha] at la
  rw [hb] at lb
  cases hma : alookup m a with
  | none => rw [hma] at la; simp at la
  | some pa0 =>
    rw [hma, Option.map_some'] at la
    cases hmb : alookup m b with
    | none => rw [hmb] at lb; simp at lb
    | some pb0 =>
      rw [hmb, Option.map_some'] at lb
      injection la with la1
      injection lb with lb1
      have hlinks0 : b ∈ pa0.Links := by
        rw [la1] at hlink
        exact hlink
      rw [lb1]
      show a ∈ sortFunc sortBacklinks (pageLinkers m b)
      rw [mem_sortFunc]
      by_cases hsearch : b = str "search"
      · subst hsearch
        rw [pageLinkers_search]
        rw [mem_keysOf_iff, hma]
        rfl
      · exact mem_pageLinkers_of_links hsearch (alookup_mem hma) hlinks0

/-- Witness for C2 at a concrete three-page graph where `a` links to `b`. -/
theorem c2_backlink_correctness_witness :
    buildBacklinks cw2 = some cw2built ∧
    str "a" ∈ (mkPage (str "b") [] [] [str "a"]).Backlinks :=
  ⟨by decide,
    @c2_backlink_correctness cw2 cw2built (str "a") (str "b")
      (mkPage (str "a") [] [str "b"] []) (mkPage (str "b") [] [] [str "a"])
      (by decide) (by decide) (by decide) (by decide)⟩

/--
C3: after every successfully completing store operation (`Update`,
`UpdateSingle`, `RenamePage`), the page named `"search"` exists in the map
and its backlinks contain exactly the names of all pages in the map (every
page, including `"search"` itself, contributes the synthetic reference).
-/
theorem c3_search_universality {op : StoreOp} {w w' : Wiki} {fs fs' : FS}
    (h : runOp op w fs = (none, w', fs')) :
    ∃ ps, alookup w'.Pages (str "search") = some ps ∧
      ∀ x, x ∈ ps.Backlinks ↔ x ∈ keysOf w'.Pages := by
  cases op with
  | update mdFiles =>
    simp only [runOp, updateOp] at h
    cases hl : loadPages mdFiles fs with
    | error e => simp [hl] at h
    | ok pages =>
      simp only [hl] at h
      injection h with h1 h2
      injection h2 with h2 h3
      subst h2
      obtain ⟨m1, hb, hs⟩ := loadPages_ok_build hl
      exact search_backlinks_of_build hb hs
  | updateSingle name =>
    simp only [runOp, Candl.updateSingle] at h
    cases hl : loadPage fs (getPagePath w.Dir name) with
    | error e => simp [hl] at h
    | ok page =>
      simp only [hl] at h
      cases hb : buildBacklinks (ainsert w.Pages name page) with
      | none => simp [hb] at h
      | some m2 =>
        simp only [hb] at h
        injection h with h1 h2
        injection h2 with h2 h3
        subst h2
        have hs := buildBacklinks_search_exists hb (ainsert_ne_nil _ _ _)
        exact search_backlinks_of_build hb hs
  | renamePage oldName newName =>
    simp only [runOp, Candl.renamePage] at h
    cases hr : fsRename fs (getPagePath w.Dir oldName) (getPagePath w.Dir newName) with
    | none => simp [hr] at h
    | some fs1 =>
      simp only [hr] at h
      cases ho : alookup w.Pages oldName with
      | none => simp [ho] at h
      | some pOld =>
        simp only [ho] at h
        cases hn : alookup (renameMoved w.Pages oldName newName pOld) newName with
        | none => simp [hn] at h
        | some pNew =>
          simp only [hn] at h
          cases hloop : renameLoop w.Dir oldName newName pNew.Backlinks
              (renameMoved w.Pages oldName newName pOld) fs1 with
          | mk r pr =>
            obtain ⟨m, fs2⟩ := pr
            simp only [hloop] at h
            cases r with
            | some e => simp at h
            | none =>
              cases hb : buildBacklinks m with
              | none => simp [hb] at h
              | some m2 =>
                simp only [hb] at h
                injection h with h1 h2
                injection h2 with h2 h3
                subst h2
                have hm0 : renameMoved w.Pages oldName newName pOld ≠ [] :=
                  alookup_ne_nil hn
                have hmne : m ≠ [] := renameLoop_ne_nil _ _ _ _ _ _ hloop hm0
                have hs := buildBacklinks_search_exists hb hmne
                exact search_backlinks_of_build hb hs

/-- Witness for C3: a full reload of a one-file directory. -/
theorem c3_search_universality_witness :
    ∃ w' fs', runOp (.update [str "d/a.md"]) ⟨[], str "d"⟩ [(str "d/a.md", str "hi")] =
      (none, w', fs') ∧
    ∃ ps, alookup w'.Pages (str "search") = some ps ∧
      ∀ x, x ∈ ps.Backlinks ↔ x ∈ keysOf w'.Pages := by
  exact ⟨_, _, rfl,
    @c3_search_universality (.update [str "d/a.md"]) ⟨[], str "d"⟩ _
      [(str "d/a.md", str "hi")] _ rfl⟩

/-- A read failure makes `loadPage` fail. -/
theorem loadPage_err {fs : FS} {path : Str} (h : fsRead fs path = none) :
    loadPage fs path = .error .ioError := by
  simp [loadPage, h]

/-- One failing path fails the whole sequential batch, whatever the
accumulator. -/
theorem loadPagesAux_error {fs : FS} {path : Str} :
    ∀ (ps : List Str) (acc : PageMap), path ∈ ps → fsRead fs path = none →
    ∃ e, loadPagesAux fs ps acc = .error e := by
  intro ps
  induction ps with
  | nil => intro acc hmem; cases hmem
  | cons q qs ih =>
    intro acc hmem hfail
    cases hq : loadPage fs q with
    | error e => exact ⟨e, by simp [loadPagesAux, hq]⟩
    | ok page =>
      rcases List.mem_cons.mp hmem with rfl | hmem2
      · rw [loadPage_err hfail] at hq
        exact absurd hq (by simp)
      · obtain ⟨e, he⟩ := ih (ainsert acc page.Name page) hmem2 hfail
        exact ⟨e, by simp [loadPagesAux, hq, he]⟩

/--
C8: if any single page load fails during a full reload (here: a path
listed by the walk cannot be read), `loadPages` returns an error and no
partial map, and `Update` leaves the store's page map and the filesystem
exactly as they were.
-/
theorem c8_full_reload_failure {w : Wiki} {mdFiles : List Str} {fs : FS} {path : Str}
    (hmem : path ∈ mdFiles) (hfail : fsRead fs path = none) :
    ∃ e, loadPages mdFiles fs = .error e ∧
      updateOp w mdFiles fs = (some e, w, fs) := by
  obtain ⟨e, he⟩ := loadPagesAux_error mdFiles [] hmem hfail
  refine ⟨e, ?_, ?_⟩
  · simp [loadPages, he]
  · simp [updateOp, loadPages, he]

/-- Witness for C8: a walk that lists a file absent from storage. -/
theorem c8_full_reload_failure_witness :
    (str "d/x.md" ∈ [str "d/x.md"] ∧ fsRead [] (str "d/x.md") = none) ∧
    ∃ e, loadPages [str "d/x.md"] ([] : FS) = .error e ∧
      updateOp ⟨[(str "a", searchPage)], str "d"⟩ [str "d/x.md"] [] =
        (some e, ⟨[(str "a", searchPage)], str "d"⟩, []) :=
  ⟨⟨by decide, by decide⟩,
    @c8_full_reload_failure ⟨[(str "a", searchPage)], str "d"⟩ [str "d/x.md"] []
      (str "d/x.md") (by decide) (by decide)⟩

/--
C10: pages are keyed by the base filename with `.md` stripped even though
the walk is recursive: two files named `note.md` in different
subdirectories load to the same name, and the map built from them holds
exactly one page under `"note"` (one file silently supersedes the other).
-/
theorem c10_duplicate_basenames :
    str "w/s1/note.md" ≠ str "w/s2/note.md" ∧
    (∃ p1, loadPage [(str "w/s1/note.md", str "A"), (str "w/s2/note.md", str "B")]
        (str "w/s1/note.md") = .ok p1 ∧ p1.Name = str "note") ∧
    (∃ p2, loadPage [(str "w/s1/note.md", str "A"), (str "w/s2/note.md", str "B")]
        (str "w/s2/note.md") = .ok p2 ∧ p2.Name = str "note") ∧
    ∃ m, loadPages [str "w/s1/note.md", str "w/s2/note.md"]
        [(str "w/s1/note.md", str "A"), (str "w/s2/note.md", str "B")] = .ok m ∧
      (keysOf m).count (str "note") = 1 ∧
      ∃ p, alookup m (str "note") = some p ∧ (p.Raw = str "A" ∨ p.Raw = str "B") := by
  refine ⟨by decide, ⟨_, rfl, by decide⟩, ⟨_, rfl, by decide⟩, _, rfl, by decide, _, rfl, ?_⟩
  decide

/--
C4 (title derivation): when the raw content starts with `"# "` and has a
later line break the title is the trimmed heading text, but in the
fallback case `loadPage` leaves `Title` empty instead of using the page
name, contradicting the field's own documentation (`// from the first '#'
heading else Name`). -/
theorem c4_title_fallback_missing :
    (∃ p, loadPage [(str "d/titled.md", str "# My Title  \nbody")] (str "d/titled.md") =
        .ok p ∧ p.Name = str "titled" ∧ p.Title = str "My Title") ∧
    (∃ p, loadPage [(str "d/plain.md", str "no heading here\n")] (str "d/plain.md") =
        .ok p ∧ p.Name = str "plain" ∧ p.Title = [] ∧ p.Title ≠ p.Name) := by
  refine ⟨⟨_, rfl, by decide, by decide⟩, ⟨_, rfl, by decide, by decide, by decide⟩⟩

/--
C6 counterexample: the occurrence `[[ ]]` has a non-empty raw target that
trims to the empty string; `linkRe` does match it, `loadPage` adds the
empty string to the outbound link set, and the occurrence is rewritten to
`[]()`, so it is neither ignored nor preserved. -/
theorem c6_counterexample :
    ∃ p, loadPage [(str "d/x.md", str "[[ ]]")] (str "d/x.md") = .ok p ∧
      p.Raw = str "[[ ]]" ∧ trimSpace (str " ") = [] ∧
      p.Links = [([] : Str)] ∧ p.Processed = str "[]()" ∧
      p.Links ≠ [] ∧ p.Processed ≠ p.Raw := by
  refine ⟨_, rfl, by decide, by decide, by decide, by decide, by decide, by decide⟩

/--
C6 amended: occurrences whose target segment is empty (`[[]]`) or whose
label segment is present but empty after a non-empty target would be
(`[[|label]]`) do not match `linkRe`: they add no outbound entry and are
preserved byte-for-byte; but a whitespace-only target such as `[[ ]]`
does match: it adds the empty string to the link set and is rewritten to
`[]()`. -/
theorem c6_malformed_tolerance :
    (∃ p, loadPage [(str "d/y.md", str "[[]] and [[|label]]")] (str "d/y.md") = .ok p ∧
      p.Links = [] ∧ p.Processed = p.Raw) ∧
    (∃ p, loadPage [(str "d/x.md", str "[[ ]]")] (str "d/x.md") = .ok p ∧
      p.Links = [([] : Str)] ∧ p.Processed = str "[]()") := by
  exact ⟨⟨_, rfl, by decide, by decide⟩, ⟨_, rfl, by decide, by decide⟩⟩

/-- Byte-wise string comparison is transitive. -/
theorem lexLt_trans : ∀ (a b c : Str), lexLt a b = true → lexLt b c = true →
    lexLt a c = true := by
  intro a
  induction a with
  | nil =>
    intro b c hab hbc
    cases b with
    | nil => simp [lexLt] at hab
    | cons y ys =>
      cases c with
      | nil => simp [lexLt] at hbc
      | cons z zs => simp [lexLt]
  | cons x xs ih =>
    intro b c hab hbc
    cases b with
    | nil => simp [lexLt] at hab
    | cons y ys =>
      cases c with
      | nil => simp [lexLt] at hbc
      | cons z zs =>
        simp only [lexLt] at hab hbc ⊢
        split_ifs at hab hbc ⊢ <;>
          first
          | rfl
          | omega
          | exact Bool.noConfusion hab
          | exact Bool.noConfusion hbc
          | exact ih ys zs hab hbc

/-- Byte-wise string comparison is asymmetric. -/
theorem lexLt_asymm : ∀ (a b : Str), lexLt a b = true → lexLt b a = false := by
  intro a
  induction a with
  | nil =>
    intro b hab
    cases b with
    | nil => simp [lexLt] at hab
    | cons y ys => simp [lexLt]
  | cons x xs ih =>
    intro b hab
    cases b with
    | nil => simp [lexLt] at hab
    | cons y ys =>
      simp only [lexLt] at hab ⊢
      split_ifs at hab ⊢ <;>
        first
        | rfl
        | omega
        | exact Bool.noConfusion hab
        | exact ih ys hab

/-- Byte-wise string comparison is connex: mutually unordered strings are
equal. -/
theorem lexLt_connex : ∀ (a b : Str), lexLt a b = false → lexLt b a = false →
    a = b := by
  intro a
  induction a with
  | nil =>
    intro b hab _
    cases b with
    | nil => rfl
    | cons y ys => simp [lexLt] at hab
  | cons x xs ih =>
    intro b hab hba
    cases b with
    | nil => simp [lexLt] at hba
    | cons y ys =>
      simp only [lexLt] at hab hba
      split_ifs at hab hba <;>
        first
        | exact Bool.noConfusion hab
        | exact Bool.noConfusion hba
        | (have h3 : x.toNat = y.toNat := by omega
           have hxy : x = y := by
             have h4 := congrArg Char.ofNat h3
             rwa [Char.ofNat_toNat, Char.ofNat_toNat] at h4
           rw [hxy, ih ys hab hba])

/-- An unordered pair stays unordered across a middle element. -/
theorem lexLt_false_trans {a b c : Str} (hba : lexLt b a = false)
    (hcb : lexLt c b = false) : lexLt c a = false := by
  by_contra hca
  rw [Bool.not_eq_false] at hca
  by_cases hab : lexLt a b = true
  · have := lexLt_trans c a b hca hab
    rw [this] at hcb
    exact absurd hcb (by simp)
  · have hab2 : lexLt a b = false := by simpa using hab
    have heq : a = b := lexLt_connex a b hab2 hba
    subst heq
    rw [hca] at hcb
    exact absurd hcb (by simp)

/-- The value of `sortBacklinks` on two non-digit-leading names. -/
theorem sortBacklinks_alpha {a b : Str} (ha : beginsNum a = false)
    (hb : beginsNum b = false) :
    sortBacklinks a b = if lexLt a b then -1 else if lexLt b a then 1 else 0 := by
  simp [sortBacklinks, ha, hb]

/-- The value of `sortBacklinks` on two digit-leading names. -/
theorem sortBacklinks_num {a b : Str} (ha : beginsNum a = true)
    (hb : beginsNum b = true) :
    sortBacklinks a b = if lexLt a b then 1 else if lexLt b a then -1 else 0 := by
  simp [sortBacklinks, ha, hb]

/-- The value of `sortBacklinks` on a mixed pair. -/
theorem sortBacklinks_mixed {a b : Str} (ha : beginsNum a = false)
    (hb : beginsNum b = true) :
    sortBacklinks a b = -1 ∧ sortBacklinks b a = 1 := by
  constructor <;> simp [sortBacklinks, ha, hb]

/-- The alphabetic comparison is non-positive exactly when the reverse
strict comparison fails. -/
theorem alpha_le_iff {a b : Str} :
    ((if lexLt a b then (-1 : Int) else if lexLt b a then 1 else 0) ≤ 0) ↔
      lexLt b a = false := by
  by_cases hab : lexLt a b = true
  · simp [hab, lexLt_asymm a b hab]
  · have hab2 : lexLt a b = false := by simpa using hab
    by_cases hba : lexLt b a = true
    · simp [hab2, hba]
    · have hba2 : lexLt b a = false := by simpa using hba
      simp [hab2, hba2]

/-- The digit-leading comparison is non-positive exactly when the forward
strict comparison fails. -/
theorem num_le_iff {a b : Str} :
    ((if lexLt a b then (1 : Int) else if lexLt b a then -1 else 0) ≤ 0) ↔
      lexLt a b = false := by
  by_cases hab : lexLt a b = true
  · simp [hab]
  · have hab2 : lexLt a b = false := by simpa using hab
    by_cases hba : lexLt b a = true
    · simp [hab2, hba]
    · have hba2 : lexLt b a = false := by simpa using hba
      simp [hab2, hba2]

/--
C7: `sortBacklinks` is a total order — transitive, antisymmetric up to
equality, total — in which every non-digit-leading name sorts before every
digit-leading name, non-digit-leading names compare in ascending
lexicographic order, digit-leading names in descending lexicographic
order; and sorting `["2024-01-01","apple","2023-05-05","banana"]` with it
yields `["apple","banana","2024-01-01","2023-05-05"]`.
-/
theorem c7_sort_total_order :
    (∀ a b c : Str, sortBacklinks a b ≤ 0 → sortBacklinks b c ≤ 0 →
      sortBacklinks a c ≤ 0) ∧
    (∀ a b : Str, sortBacklinks a b ≤ 0 → sortBacklinks b a ≤ 0 → a = b) ∧
    (∀ a b : Str, sortBacklinks a b ≤ 0 ∨ sortBacklinks b a ≤ 0) ∧
    (∀ a b : Str, beginsNum a = false → beginsNum b = true →
      sortBacklinks a b = -1 ∧ sortBacklinks b a = 1) ∧
    (∀ a b : Str, beginsNum a = false → beginsNum b = false →
      (sortBacklinks a b = -1 ↔ lexLt a b = true)) ∧
    (∀ a b : Str, beginsNum a = true → beginsNum b = true →
      (sortBacklinks a b = -1 ↔ lexLt b a = true)) ∧
    sortFunc sortBacklinks
        [str "2024-01-01", str "apple", str "2023-05-05", str "banana"] =
      [str "apple", str "banana", str "2024-01-01", str "2023-05-05"] := by
  refine ⟨?_, ?_, ?_, fun a b ha hb => sortBacklinks_mixed ha hb, ?_, ?_, by decide⟩
  · -- transitivity
    intro a b c hab hbc
    cases ha : beginsNum a <;> cases hb : beginsNum b <;> cases hc : beginsNum c
    · rw [sortBacklinks_alpha ha hb, alpha_le_iff] at hab
      rw [sortBacklinks_alpha hb hc, alpha_le_iff] at hbc
      rw [sortBacklinks_alpha ha hc, alpha_le_iff]
      exact lexLt_false_trans hab hbc
    · rw [(sortBacklinks_mixed ha hc).1]
      omega
    · rw [(sortBacklinks_mixed hc hb).2] at hbc
      omega
    · rw [(sortBacklinks_mixed ha hc).1]
      omega
    · rw [(sortBacklinks_mixed hb ha).2] at hab
      omega
    · rw [(sortBacklinks_mixed hb ha).2] at hab
      omega
    · rw [(sortBacklinks_mixed hc hb).2] at hbc
      omega
    · rw [sortBacklinks_num ha hb, num_le_iff] at hab
      rw [sortBacklinks_num hb hc, num_le_iff] at hbc
      rw [sortBacklinks_num ha hc, num_le_iff]
      exact lexLt_false_trans hbc hab
  · -- antisymmetry
    intro a b hab hba
    cases ha : beginsNum a <;> cases hb : beginsNum b
    · rw [sortBacklinks_alpha ha hb, alpha_le_iff] at hab
      rw [sortBacklinks_alpha hb ha, alpha_le_iff] at hba
      exact lexLt_connex a b hba hab
    · rw [(sortBacklinks_mixed ha hb).2] at hba
      omega
    · rw [(sortBacklinks_mixed hb ha).2] at hab
      omega
    · rw [sortBacklinks_num ha hb, num_le_iff] at hab
      rw [sortBacklinks_num hb ha, num_le_iff] at hba
      exact lexLt_connex a b hab hba
  · -- totality
    intro a b
    cases ha : beginsNum a <;> cases hb : beginsNum b
    · rw [sortBacklinks_alpha ha hb, alpha_le_iff, sortBacklinks_alpha hb ha,
        alpha_le_iff]
      by_cases h : lexLt b a = true
      · exact Or.inr (lexLt_asymm b a h)
      · exact Or.inl (by simpa using h)
    · exact Or.inl (by rw [(sortBacklinks_mixed ha hb).1]; omega)
    · exact Or.inr (by rw [(sortBacklinks_mixed hb ha).1]; omega)
    · rw [sortBacklinks_num ha hb, num_le_iff, sortBacklinks_num hb ha, num_le_iff]
      by_cases h : lexLt a b = true
      · exact Or.inr (lexLt_asymm a b h)
      · exact Or.inl (by simpa using h)
  · -- ascending order among non-digit-leading names
    intro a b ha hb
    rw [sortBacklinks_alpha ha hb]
    by_cases hab : lexLt a b = true
    · simp [hab]
    · have hab2 : lexLt a b = false := by simpa using hab
      by_cases hba : lexLt b a = true
      · simp [hab2, hba]
      · have hba2 : lexLt b a = false := by simpa using hba
        simp [hab2, hba2]
  · -- descending order among digit-leading names
    intro a b ha hb
    rw [sortBacklinks_num ha hb]
    by_cases hab : lexLt a b = true
    · simp [hab, lexLt_asymm a b hab]
    · have hab2 : lexLt a b = false := by simpa using hab
      by_cases hba : lexLt b a = true
      · simp [hab2, hba]
      · have hba2 : lexLt b a = false := by simpa using hba
        simp [hab2, hba2]

/-- Witness for C7 at concrete names. -/
theorem c7_sort_total_order_witness :
    (sortBacklinks (str "apple") (str "banana") ≤ 0 ∧
     sortBacklinks (str "banana") (str "cherry") ≤ 0 ∧
     sortBacklinks (str "apple") (str "cherry") ≤ 0) ∧
    sortBacklinks (str "apple") (str "2024-01-01") = -1 ∧
    (sortBacklinks (str "2024-01-01") (str "2023-05-05") = -1 ↔
      lexLt (str "2023-05-05") (str "2024-01-01") = true) :=
  ⟨⟨by decide, by decide,
      c7_sort_total_order.1 (str "apple") (str "banana") (str "cherry")
        (by decide) (by decide)⟩,
    (c7_sort_total_order.2.2.2.1 (str "apple") (str "2024-01-01")
      (by decide) (by decide)).1,
    c7_sort_total_order.2.2.2.2.2.1 (str "2024-01-01") (str "2023-05-05")
      (by decide) (by decide)⟩

/-- Every element of an insertion result is an old binding or the new one. -/
theorem mem_ainsert {β : Type} {e : Str × β} :
    ∀ {m : List (Str × β)} {k : Str} {v : β},
    e ∈ ainsert m k v → e ∈ m ∨ e = (k, v) := by
  intro m
  induction m with
  | nil =>
    intro k v h
    simp [ainsert] at h
    exact Or.inr h
  | cons e2 rest ih =>
    intro k v h
    obtain ⟨k', v'⟩ := e2
    by_cases hk : k' = k
    · subst hk
      simp only [ainsert, if_pos rfl] at h
      rcases List.mem_cons.mp h with rfl | h2
      · exact Or.inr rfl
      · exact Or.inl (List.mem_cons_of_mem _ h2)
    · simp only [ainsert, if_neg hk] at h
      rcases List.mem_cons.mp h with rfl | h2
      · exact Or.inl (List.mem_cons_self _ _)
      · rcases ih h2 with h3 | h3
        · exact Or.inl (List.mem_cons_of_mem _ h3)
        · exact Or.inr h3

/-- The sequential batch load keys every page by its own `Name`. -/
theorem loadPagesAux_names {fs : FS} :
    ∀ (ps : List Str) (acc pages : PageMap),
    (∀ e ∈ acc, e.2.Name = e.1) → loadPagesAux fs ps acc = .ok pages →
    ∀ e ∈ pages, e.2.Name = e.1 := by
  intro ps
  induction ps with
  | nil =>
    intro acc pages hacc h
    simp only [loadPagesAux] at h
    injection h with h1
    subst h1
    exact hacc
  | cons q qs ih =>
    intro acc pages hacc h
    simp only [loadPagesAux] at h
    cases hq : loadPage fs q with
    | error e => rw [hq] at h; exact absurd h (by simp)
    | ok page =>
      rw [hq] at h
      refine ih _ _ (fun e he => ?_) h
      rcases mem_ainsert he with h2 | h2
      · exact hacc e h2
      · rw [h2]

/-- The `"search"` synthesis step keys the reserved page by its name. -/
theorem withSearch_names {m : PageMap} (h : ∀ e ∈ m, e.2.Name = e.1) :
    ∀ e ∈ withSearch m, e.2.Name = e.1 := by
  intro e he
  unfold withSearch at he
  split at he
  · rcases mem_ainsert he with h2 | h2
    · exact h e h2
    · rw [h2]; rfl
  · exact h e he

/-- `buildBacklinks` does not change any page's `Name`. -/
theorem buildBacklinks_names {m m' : PageMap} (hb : buildBacklinks m = some m')
    (h : ∀ e ∈ m, e.2.Name = e.1) : ∀ e ∈ m', e.2.Name = e.1 := by
  unfold buildBacklinks at hb
  split at hb
  · injection hb with h1
    subst h1
    exact h
  · split at hb
    · exact absurd hb (by simp)
    · injection hb with h1
      subst h1
      intro e he
      obtain ⟨e0, he0, heq⟩ := List.mem_map.mp he
      rw [← heq]
      exact h e0 he0

/-- `filepath.Base` copies a separator-free tail verbatim. -/
theorem baseAux_no_slash : ∀ (l acc : Str), (∀ c ∈ l, c ≠ '/') →
    baseAux l acc = acc.reverse ++ l := by
  intro l
  induction l with
  | nil => intro acc h; simp [baseAux]
  | cons c cs ih =>
    intro acc h
    have hc : c ≠ '/' := h c (List.mem_cons_self _ _)
    simp only [baseAux, if_neg hc]
    rw [ih (c :: acc) (fun d hd => h d (List.mem_cons_of_mem _ hd))]
    simp

/-- `filepath.Base` ignores everything before the last separator. -/
theorem baseAux_slash : ∀ (l : Str) (acc : Str) (r : Str),
    baseAux (l ++ '/' :: r) acc = baseAux r [] := by
  intro l
  induction l with
  | nil => intro acc r; simp [baseAux]
  | cons c cs ih =>
    intro acc r
    by_cases hc : c = '/'
    · subst hc
      simp only [List.cons_append, baseAux, if_pos rfl]
      exact ih [] r
    · simp only [List.cons_append, baseAux, if_neg hc]
      exact ih _ r

/-- The page name computed by `loadPage` for a store path is the store
name, provided the name contains no path separator. -/
theorem pageName_of_path (dir name : Str) (h : ∀ c ∈ name, c ≠ '/') :
    trimSuffix (baseName (getPagePath dir name)) (str ".md") = name := by
  have hbase : baseName (getPagePath dir name) = name ++ str ".md" := by
    unfold baseName getPagePath
    rw [baseAux_slash dir [] (name ++ str ".md")]
    rw [baseAux_no_slash (name ++ str ".md") [] ?hns]
    case hns =>
      intro c hc
      rcases List.mem_append.mp hc with h2 | h2
      · exact h c h2
      · have h3 : c = '.' ∨ c = 'm' ∨ c = 'd' := by
          have h4 : str ".md" = ['.', 'm', 'd'] := rfl
          rw [h4] at h2
          simpa using h2
        rcases h3 with rfl | rfl | rfl <;> decide
    simp
  rw [hbase]
  unfold trimSuffix
  have hsuf : (str ".md").isSuffixOf (name ++ str ".md") = true := by
    rw [List.isSuffixOf_iff_suffix]
    exact List.suffix_append name (str ".md")
  rw [if_pos hsuf]
  simp only [List.length_append]
  have hlen : name.length + (str ".md").length - (str ".md").length = name.length := by
    omega
  rw [hlen]
  exact List.take_left name (str ".md")

/-- Keys not listed in the backlinks are untouched by the rename loop. -/
theorem renameLoop_lookup_notmem {dir oldName newName : Str} :
    ∀ (bs : List Str) (m : PageMap) (fs : FS) (m' : PageMap) (fs' : FS) (k : Str),
    k ∉ bs → renameLoop dir oldName newName bs m fs = (none, m', fs') →
    alookup m' k = alookup m k := by
  intro bs
  induction bs with
  | nil =>
    intro m fs m' fs' k _ h
    simp only [renameLoop, Prod.mk.injEq] at h
    rw [h.2.1]
  | cons n ns ih =>
    intro m fs m' fs' k hk h
    simp only [renameLoop] at h
    cases hn : alookup m n with
    | none => simp [hn] at h
    | some linkingPage =>
      simp only [hn] at h
      cases hload : loadPage (fsWrite fs (getPagePath dir n)
          (renameWikilinks linkingPage.Raw oldName newName)) (getPagePath dir n) with
      | error e => simp [hload] at h
      | ok page =>
        simp only [hload] at h
        have hkn : k ≠ n := fun hkn => hk (hkn ▸ List.mem_cons_self _ _)
        have hkns : k ∉ ns := fun h2 => hk (List.mem_cons_of_mem _ h2)
        rw [ih _ _ _ _ k hkns h]
        exact alookup_ainsert_ne _ hkn

/--
C5 counterexample: `RenamePage` performs no name validation.  With the
invalid name `"a b"` present on disk and in the map, the operation
succeeds (it does not return an error of any kind) and both the in-memory
page map and the backing storage are modified.
-/
theorem c5_counterexample :
    isValidName (str "a b") = false ∧
    ∃ w' fs',
      renamePage
        ⟨[(str "a b", mkPage (str "a b") [] [] []),
          (str "search", mkPage (str "search") [] [] [])], str "d"⟩
        (str "a b") (str "c") [(str "d/a b.md", str "x")] = (none, w', fs') ∧
      w'.Pages ≠ [(str "a b", mkPage (str "a b") [] [] []),
        (str "search", mkPage (str "search") [] [] [])] ∧
      fs' ≠ [(str "d/a b.md", str "x")] ∧
      (alookup w'.Pages (str "c")).isSome := by
  exact ⟨by decide, _, _, rfl, by decide, by decide, by decide⟩

/--
C5 amended: the identifier grammar is enforced only by the HTTP edit
handler, not by `RenamePage` itself: a request whose URL name or submitted
rename target fails `isValidName` (`^[a-zA-Z0-9_+-]+$`) is rejected with
`400 Bad Request` before any core call, with the store and the storage
unchanged.
-/
theorem c5_rename_validation_in_api {w : Wiki} {fs : FS} {urlName formName body : Str} :
    (isValidName urlName = false →
      servePostEdit w fs urlName formName body = (.badRequest, w, fs)) ∧
    (formName ≠ urlName → isValidName formName = false →
      servePostEdit w fs urlName formName body = (.badRequest, w, fs)) := by
  constructor
  · intro h
    simp [servePostEdit, h]
  · intro hne h
    by_cases hu : isValidName urlName = true
    · simp [servePostEdit, hu, hne, h]
    · have hu2 : isValidName urlName = false := by simpa using hu
      simp [servePostEdit, hu2]

/-- Witness for the amended C5 at the invalid name `"a b"`. -/
theorem c5_rename_validation_in_api_witness :
    isValidName (str "a b") = false ∧
    servePostEdit ⟨[], str "d"⟩ [] (str "a b") (str "c") (str "body") =
      (.badRequest, ⟨[], str "d"⟩, []) :=
  ⟨by decide,
    (@c5_rename_validation_in_api ⟨[], str "d"⟩ [] (str "a b") (str "c")
      (str "body")).1 (by decide)⟩

/--
C9 counterexample: `RenamePage` moves the map entry to the new key without
updating its `Name` field, so after renaming `B` to `C` the page stored
under `"C"` still has `Name = "B"`, violating the claimed invariant.
-/
theorem c9_counterexample :
    ∃ w' fs' p,
      renamePage
        ⟨[(str "B", mkPage (str "B") [] [] []),
          (str "search", mkPage (str "search") [] [] [])], str "d"⟩
        (str "B") (str "C") [(str "d/B.md", str "x")] = (none, w', fs') ∧
      alookup w'.Pages (str "C") = some p ∧ p.Name = str "B" ∧ p.Name ≠ str "C" := by
  exact ⟨_, _, _, rfl, rfl, by decide, by decide⟩

/--
C9 amended: after a successful `Update` every key of the page map equals
the stored page's `Name`; after a successful `UpdateSingle` of a
separator-free name the property is preserved; but a successful
`RenamePage` leaves the moved entry keyed under `newName` with its old
`Name` field (the claim's invariant fails for `RenamePage`; the edit
handler's follow-up `UpdateSingle` restores it).
-/
theorem c9_keys_equal_names :
    (∀ (w w' : Wiki) (mdFiles : List Str) (fs fs' : FS),
      updateOp w mdFiles fs = (none, w', fs') →
      ∀ e ∈ w'.Pages, e.2.Name = e.1) ∧
    (∀ (w w' : Wiki) (name : Str) (fs fs' : FS),
      (∀ e ∈ w.Pages, e.2.Name = e.1) → (∀ c ∈ name, c ≠ '/') →
      updateSingle w name fs = (none, w', fs') →
      ∀ e ∈ w'.Pages, e.2.Name = e.1) ∧
    (∀ (w w' : Wiki) (oldName newName : Str) (fs fs' : FS) (pOld : Page),
      oldName ≠ newName → alookup w.Pages oldName = some pOld →
      newName ∉ pOld.Backlinks →
      renamePage w oldName newName fs = (none, w', fs') →
      ∃ pc, alookup w'.Pages newName = some pc ∧ pc.Name = pOld.Name) := by
  refine ⟨?_, ?_, ?_⟩
  · intro w w' mdFiles fs fs' h
    simp only [updateOp] at h
    cases hl : loadPages mdFiles fs with
    | error e => simp [hl] at h
    | ok pages =>
      simp only [hl] at h
      injection h with h1 h2
      injection h2 with h2 h3
      subst h2
      show ∀ e ∈ pages, e.2.Name = e.1
      unfold loadPages at hl
      split at hl
      · exact absurd hl (by simp)
      · rename_i pages0 haux
        split at hl
        · rename_i mb hb
          injection hl with hl1
          subst hl1
          exact buildBacklinks_names hb
            (withSearch_names (loadPagesAux_names mdFiles [] pages0 (by simp) haux))
        · exact absurd hl (by simp)
  · intro w w' name fs fs' hw hslash h
    simp only [Candl.updateSingle] at h
    cases hl : loadPage fs (getPagePath w.Dir name) with
    | error e => simp [hl] at h
    | ok page =>
      simp only [hl] at h
      cases hb : buildBacklinks (ainsert w.Pages name page) with
      | none => simp [hb] at h
      | some m2 =>
        simp only [hb] at h
        injection h with h1 h2
        injection h2 with h2 h3
        subst h2
        have hpage : page.Name = name := by
          unfold loadPage at hl
          cases hr : fsRead fs (getPagePath w.Dir name) with
          | none => rw [hr] at hl; exact absurd hl (by simp)
          | some b =>
            rw [hr] at hl
            injection hl with hl1
            rw [← hl1]
            exact pageName_of_path w.Dir name hslash
        refine buildBacklinks_names hb (fun e he => ?_)
        rcases mem_ainsert he with h2 | h2
        · exact hw e h2
        · rw [h2]
          exact hpage
  · intro w w' oldName newName fs fs' pOld hne ho hbl h
    simp only [Candl.renamePage] at h
    cases hr : fsRename fs (getPagePath w.Dir oldName) (getPagePath w.Dir newName) with
    | none => simp [hr] at h
    | some fs1 =>
      simp only [hr, ho] at h
      have hm0 : alookup (renameMoved w.Pages oldName newName pOld) newName = some pOld := by
        unfold renameMoved
        rw [alookup_aerase_ne (Ne.symm hne), alookup_ainsert_self]
      simp only [hm0] at h
      cases hloop : renameLoop w.Dir oldName newName pOld.Backlinks
          (renameMoved w.Pages oldName newName pOld) fs1 with
      | mk r pr =>
        obtain ⟨m, fs2⟩ := pr
        simp only [hloop] at h
        cases r with
        | some e => simp at h
        | none =>
          cases hb : buildBacklinks m with
          | none => simp [hb] at h
          | some m2 =>
            simp only [hb] at h
            injection h with h1 h2
            injection h2 with h2 h3
            subst h2
            have hmn : alookup m newName = some pOld := by
              rw [renameLoop_lookup_notmem pOld.Backlinks _ _ _ _ newName hbl hloop]
              exact hm0
            have hfinal := buildBacklinks_lookup hb newName
            rw [hmn, Option.map_some'] at hfinal
            exact ⟨_, hfinal, rfl⟩

/-- Witness for the amended C9: the key/name agreement on a concrete map
and the pinned rename behaviour at a concrete store. -/
theorem c9_keys_equal_names_witness :
    ∃ w' fs' pc,
      renamePage
        ⟨[(str "B", mkPage (str "B") [] [] []),
          (str "search", mkPage (str "search") [] [] [])], str "e"⟩
        (str "B") (str "C") [(str "e/B.md", str "y")] = (none, w', fs') ∧
      alookup w'.Pages (str "C") = some pc ∧
      pc.Name = (mkPage (str "B") [] [] []).Name := by
  have h := c9_keys_equal_names.2.2
    ⟨[(str "B", mkPage (str "B") [] [] []),
      (str "search", mkPage (str "search") [] [] [])], str "e"⟩
    _ (str "B") (str "C") [(str "e/B.md", str "y")] _
    (mkPage (str "B") [] [] []) (by decide) (by decide) (by decide) rfl
  exact ⟨_, _, h.choose, rfl, h.choose_spec.1, h.choose_spec.2⟩

/-- An identifier character is not one of the `linkRe` special characters. -/
theorem isNameChar_not_special {c : Char} (h : isNameChar c = true) :
    special c = false := by
  rw [special, decide_eq_false_iff_not]
  rintro (rfl | rfl | rfl) <;> exact absurd h (by decide)

/-- A white-space character is not one of the `linkRe` special characters. -/
theorem isSpace_not_special {c : Char} (h : isSpace c = true) :
    special c = false := by
  rw [special, decide_eq_false_iff_not]
  rintro (rfl | rfl | rfl) <;> exact absurd h (by decide)

/-- An identifier character is not white space. -/
theorem isNameChar_not_space {c : Char} (h : isNameChar c = true) :
    isSpace c = false := by
  cases hsp : isSpace c with
  | false => rfl
  | true =>
    exfalso
    rw [isNameChar, decide_eq_true_iff] at h
    rw [isSpace, decide_eq_true_iff] at hsp
    simp only [Char.toNat] at hsp
    rcases h with h | h | h | rfl | rfl | rfl
    · obtain ⟨ha, hb⟩ := h
      simp [Char.le_def] at ha hb
      have ha2 : 97 ≤ c.val.toNat := ha
      have hb2 : c.val.toNat ≤ 122 := hb
      rcases hsp with h2 | h2 | h2 | h2 | h2 | h2 | h2 | h2 | h2 | h2 | h2 <;> omega
    · obtain ⟨ha, hb⟩ := h
      simp [Char.le_def] at ha hb
      have ha2 : 65 ≤ c.val.toNat := ha
      have hb2 : c.val.toNat ≤ 90 := hb
      rcases hsp with h2 | h2 | h2 | h2 | h2 | h2 | h2 | h2 | h2 | h2 | h2 <;> omega
    · obtain ⟨ha, hb⟩ := h
      simp [Char.le_def] at ha hb
      have ha2 : 48 ≤ c.val.toNat := ha
      have hb2 : c.val.toNat ≤ 57 := hb
      rcases hsp with h2 | h2 | h2 | h2 | h2 | h2 | h2 | h2 | h2 | h2 | h2 <;> omega
    · rcases hsp with h2 | h2 | h2 | h2 | h2 | h2 | h2 | h2 | h2 | h2 | h2 <;> revert h2 <;> decide
    · rcases hsp with h2 | h2 | h2 | h2 | h2 | h2 | h2 | h2 | h2 | h2 | h2 <;> revert h2 <;> decide
    · rcases hsp with h2 | h2 | h2 | h2 | h2 | h2 | h2 | h2 | h2 | h2 | h2 <;> revert h2 <;> decide

/-- The facts about a name accepted by the identifier grammar. -/
theorem validName_facts {v : Str} (h : isValidName v = true) :
    v ≠ [] ∧ ∀ c ∈ v, special c = false ∧ stopFree c = true ∧
      labelFree c = true ∧ isSpace c = false ∧ c ≠ '/' := by
  rw [isValidName, Bool.and_eq_true, decide_eq_true_iff] at h
  refine ⟨h.1, fun c hc => ?_⟩
  have hch : isNameChar c = true := List.all_eq_true.mp h.2 c hc
  have hns := isNameChar_not_special hch
  refine ⟨hns, ?_, ?_, isNameChar_not_space hch, ?_⟩
  · rw [stopFree, decide_eq_true_iff]
    rintro (rfl | rfl) <;> exact absurd hns (by decide)
  · rw [labelFree, decide_eq_true_iff]
    rintro rfl
    exact absurd hns (by decide)
  · rintro rfl
    exact absurd hch (by decide)

/-- Dropping with a predicate that fails on every element is the
identity. -/
theorem dropWhile_eq_self_of_all {p : Char → Bool} {l : Str}
    (h : ∀ c ∈ l, p c = false) : l.dropWhile p = l := by
  cases l with
  | nil => rfl
  | cons c cs =>
    rw [List.dropWhile_cons, h c (List.mem_cons_self c cs)]
    simp

/-- `strings.TrimSpace` is the identity on a valid identifier. -/
theorem trimSpace_of_validName {v : Str} (h : isValidName v = true) :
    trimSpace v = v := by
  have hf := (validName_facts h).2
  unfold trimSpace
  rw [dropWhile_eq_self_of_all (fun c hc => (hf c hc).2.2.2.1)]
  rw [dropWhile_eq_self_of_all (fun c hc => (hf c (List.mem_reverse.mp hc)).2.2.2.1)]
  exact List.reverse_reverse v

/-- A member that fails the predicate survives `dropWhile`. -/
theorem mem_dropWhile_of_not {p : Char → Bool} {c : Char} :
    ∀ {l : Str}, c ∈ l → p c = false → c ∈ l.dropWhile p := by
  intro l
  induction l with
  | nil => intro h _; cases h
  | cons a l2 ih =>
    intro hmem hp
    rw [List.dropWhile_cons]
    cases hpa : p a with
    | true =>
      simp only [if_pos rfl]
      rcases List.mem_cons.mp hmem with rfl | h2
      · rw [hpa] at hp; cases hp
      · exact ih h2 hp
    | false =>
      rw [if_neg (by simp)]
      exact hmem

/-- Every character of a text is white space or survives the trim. -/
theorem mem_trimSpace_or_space {t : Str} {c : Char} (hc : c ∈ t) :
    isSpace c = true ∨ c ∈ trimSpace t := by
  cases hsp : isSpace c with
  | true => exact Or.inl rfl
  | false =>
    right
    unfold trimSpace
    rw [List.mem_reverse]
    refine mem_dropWhile_of_not (List.mem_reverse.mpr ?_) hsp
    exact mem_dropWhile_of_not hc hsp

/-- A raw target that trims to a valid identifier consists of white space
and identifier characters only, hence has no special characters. -/
theorem trim_target_nonspecial {t old : Str} (ht : trimSpace t = old)
    (hold : isValidName old = true) : ∀ c ∈ t, special c = false := by
  intro c hc
  rcases mem_trimSpace_or_space hc with hsp | hmem
  · exact isSpace_not_special hsp
  · rw [ht] at hmem
    exact ((validName_facts hold).2 c hmem).1

/-- `skel` of the empty text. -/
theorem skel_nil : skel [] = [] := rfl

/-- `skel` keeps a special head character. -/
theorem skel_cons_special {c : Char} {cs : Str} (hc : special c = true) :
    skel (c :: cs) = c :: skel cs := by
  cases cs with
  | nil => simp [skel, hc]
  | cons d r => simp [skel, hc]

/-- `skel` of a single ordinary character. -/
theorem skel_single_nonspecial {c : Char} (hc : special c = false) :
    skel [c] = ['a'] := by
  simp [skel, hc]

/-- `skel` starts a collapsed run before a special character. -/
theorem skel_cons2_ns_s {c d : Char} {r : Str} (hc : special c = false)
    (hd : special d = true) : skel (c :: d :: r) = 'a' :: skel (d :: r) := by
  simp [skel, hc, hd]

/-- `skel` merges two adjacent ordinary characters. -/
theorem skel_cons2_ns_ns {c d : Char} {r : Str} (hc : special c = false)
    (hd : special d = false) : skel (c :: d :: r) = skel (d :: r) := by
  simp [skel, hc, hd]

/-- The head of a skeleton: the head character if special, else `a`. -/
theorem skel_head : ∀ (cs : Str) (c : Char), skel (c :: cs) ≠ [] ∧
    (skel (c :: cs)).head? = some (if special c = true then c else 'a') := by
  intro cs
  induction cs with
  | nil =>
    intro c
    cases hc : special c with
    | true => rw [skel_cons_special hc]; simp [hc]
    | false => rw [skel_single_nonspecial hc]; simp [hc]
  | cons d r ih =>
    intro c
    cases hc : special c with
    | true => rw [skel_cons_special hc]; simp [hc]
    | false =>
      cases hd : special d with
      | true => rw [skel_cons2_ns_s hc hd]; simp [hc]
      | false =>
        rw [skel_cons2_ns_ns hc hd]
        have h2 := ih d
        rw [hd] at h2
        simpa [hc] using h2

/-- A non-empty text has a skeleton starting with its head if special,
else with `a`. -/
theorem skel_shape (c : Char) (cs : Str) :
    ∃ t, skel (c :: cs) = (if special c = true then c else 'a') :: t := by
  obtain ⟨hne, hh⟩ := skel_head cs c
  cases hs : skel (c :: cs) with
  | nil => exact absurd hs hne
  | cons h0 t =>
    rw [hs] at hh
    simp only [List.head?_cons, Option.some_inj] at hh
    exact ⟨t, by rw [hh]⟩

/-- `takeWhile` with a predicate holding on all ordinary characters
commutes with `skel`. -/
theorem skel_takeWhile {p : Char → Bool} (hp : ∀ c, special c = false → p c = true) :
    ∀ s : Str, (skel s).takeWhile p = skel (s.takeWhile p) := by
  have hpa : p 'a' = true := hp 'a' (by decide)
  intro s
  induction s with
  | nil => rfl
  | cons c cs ih =>
    cases cs with
    | nil =>
      cases hc : special c with
      | true =>
        cases hpc : p c with
        | true =>
          rw [skel_cons_special hc, skel_nil]
          rw [List.takeWhile_cons_of_pos hpc]
          rw [List.takeWhile_nil]
          rw [skel_cons_special hc, skel_nil]
        | false =>
          rw [skel_cons_special hc, skel_nil]
          rw [List.takeWhile_cons_of_neg (by simp [hpc])]
          rw [skel_nil]
      | false =>
        have hpc : p c = true := hp c hc
        rw [skel_single_nonspecial hc]
        rw [List.takeWhile_cons_of_pos hpa, List.takeWhile_nil]
        rw [List.takeWhile_cons_of_pos hpc, List.takeWhile_nil]
        rw [skel_single_nonspecial hc]
    | cons d r =>
      cases hc : special c with
      | true =>
        rw [skel_cons_special hc]
        cases hpc : p c with
        | true =>
          rw [List.takeWhile_cons_of_pos hpc]
          rw [List.takeWhile_cons_of_pos hpc]
          rw [ih, skel_cons_special hc]
        | false =>
          rw [List.takeWhile_cons_of_neg (by simp [hpc])]
          rw [List.takeWhile_cons_of_neg (by simp [hpc])]
          rw [skel_nil]
      | false =>
        have hpc : p c = true := hp c hc
        cases hd : special d with
        | true =>
          rw [skel_cons2_ns_s hc hd]
          rw [List.takeWhile_cons_of_pos hpa]
          rw [List.takeWhile_cons_of_pos hpc]
          rw [ih]
          cases hpd : p d with
          | true =>
            rw [List.takeWhile_cons_of_pos hpd]
            rw [skel_cons2_ns_s hc hd]
          | false =>
            rw [List.takeWhile_cons_of_neg (by simp [hpd])]
            rw [skel_nil, skel_single_nonspecial hc]
        | false =>
          have hpd : p d = true := hp d hd
          rw [skel_cons2_ns_ns hc hd]
          rw [ih]
          rw [List.takeWhile_cons_of_pos hpc]
          rw [List.takeWhile_cons_of_pos hpd]
          rw [skel_cons2_ns_ns hc hd]

/-- `dropWhile` with a predicate holding on all ordinary characters
commutes with `skel`. -/
theorem skel_dropWhile {p : Char → Bool} (hp : ∀ c, special c = false → p c = true) :
    ∀ s : Str, (skel s).dropWhile p = skel (s.dropWhile p) := by
  have hpa : p 'a' = true := hp 'a' (by decide)
  intro s
  induction s with
  | nil => rfl
  | cons c cs ih =>
    cases cs with
    | nil =>
      cases hc : special c with
      | true =>
        cases hpc : p c with
        | true =>
          rw [skel_cons_special hc, skel_nil]
          rw [List.dropWhile_cons_of_pos hpc]
          rw [List.dropWhile_nil, skel_nil]
        | false =>
          rw [skel_cons_special hc, skel_nil]
          rw [List.dropWhile_cons_of_neg (by simp [hpc])]
          rw [skel_cons_special hc, skel_nil]
      | false =>
        have hpc : p c = true := hp c hc
        rw [skel_single_nonspecial hc]
        rw [List.dropWhile_cons_of_pos hpa, List.dropWhile_nil]
        rw [List.dropWhile_cons_of_pos hpc, List.dropWhile_nil, skel_nil]
    | cons d r =>
      cases hc : special c with
      | true =>
        rw [skel_cons_special hc]
        cases hpc : p c with
        | true =>
          rw [List.dropWhile_cons_of_pos hpc]
          rw [List.dropWhile_cons_of_pos hpc]
          exact ih
        | false =>
          rw [List.dropWhile_cons_of_neg (by simp [hpc])]
          rw [List.dropWhile_cons_of_neg (by simp [hpc])]
          rw [skel_cons_special hc]
      | false =>
        have hpc : p c = true := hp c hc
        cases hd : special d with
        | true =>
          rw [skel_cons2_ns_s hc hd]
          rw [List.dropWhile_cons_of_pos hpa]
          rw [List.dropWhile_cons_of_pos hpc]
          exact ih
        | false =>
          have hpd : p d = true := hp d hd
          rw [skel_cons2_ns_ns hc hd]
          rw [ih]
          rw [List.dropWhile_cons_of_pos hpc]

/-- `skel` distributes over an append that splits right after a special
character. -/
theorem skel_append_close : ∀ (A : Str) (c : Char) (B : Str), special c = true →
    skel (A ++ c :: B) = skel (A ++ [c]) ++ skel B := by
  intro A
  induction A with
  | nil =>
    intro c B hc
    simp only [List.nil_append]
    rw [skel_cons_special hc, skel_cons_special hc, skel_nil]
    simp
  | cons a A' ih =>
    intro c B hc
    cases A' with
    | nil =>
      simp only [List.cons_append, List.nil_append]
      cases hsa : special a with
      | true =>
        rw [skel_cons_special hsa, skel_cons_special hsa]
        rw [skel_cons_special hc, skel_cons_special hc, skel_nil]
        simp
      | false =>
        rw [skel_cons2_ns_s hsa hc, skel_cons2_ns_s hsa hc]
        rw [skel_cons_special hc, skel_cons_special hc, skel_nil]
        simp
    | cons a2 A'' =>
      have step := ih c B hc
      cases hsa : special a with
      | true =>
        simp only [List.cons_append] at step ⊢
        rw [skel_cons_special hsa, skel_cons_special hsa, step]
        simp
      | false =>
        cases hsa2 : special a2 with
        | true =>
          simp only [List.cons_append] at step ⊢
          rw [skel_cons2_ns_s hsa hsa2, skel_cons2_ns_s hsa hsa2, step]
          simp
        | false =>
          simp only [List.cons_append] at step ⊢
          rw [skel_cons2_ns_ns hsa hsa2, skel_cons2_ns_ns hsa hsa2, step]

/-- A non-empty run of ordinary characters before a special character
collapses to a single `a`. -/
theorem skel_run_append : ∀ (A : Str) (x0 : Char) (X : Str), A ≠ [] →
    (∀ a ∈ A, special a = false) → special x0 = true →
    skel (A ++ x0 :: X) = 'a' :: skel (x0 :: X) := by
  intro A
  induction A with
  | nil => intro x0 X hne _ _; exact absurd rfl hne
  | cons a A' ih =>
    intro x0 X _ hns hx0
    have hsa : special a = false := hns a (List.mem_cons_self _ _)
    cases A' with
    | nil =>
      simp only [List.cons_append, List.nil_append]
      exact skel_cons2_ns_s hsa hx0
    | cons a2 A'' =>
      have hsa2 : special a2 = false := hns a2 (List.mem_cons_of_mem _ (List.mem_cons_self _ _))
      simp only [List.cons_append] at ih ⊢
      rw [skel_cons2_ns_ns hsa hsa2]
      exact ih x0 X (by simp) (fun b hb => hns b (List.mem_cons_of_mem _ hb)) hx0

/-- Ordinary characters do not stop the target class. -/
theorem stopFree_of_nonspecial : ∀ e : Char, special e = false → stopFree e = true := by
  intro e he
  rw [stopFree, decide_eq_true_iff]
  rintro (rfl | rfl) <;> exact absurd he (by decide)

/-- Ordinary characters do not stop the label class. -/
theorem labelFree_of_nonspecial : ∀ e : Char, special e = false → labelFree e = true := by
  intro e he
  rw [labelFree, decide_eq_true_iff]
  rintro rfl
  exact absurd he (by decide)

/-- A character failing the target class is a closer or a separator. -/
theorem stopFree_false_cases {e : Char} (h : stopFree e = false) :
    e = ']' ∨ e = '|' := by
  rw [stopFree, decide_eq_false_iff_not] at h
  exact not_not.mp h

/-- A character failing the label class is a closer. -/
theorem labelFree_false_cases {e : Char} (h : labelFree e = false) : e = ']' := by
  rw [labelFree, decide_eq_false_iff_not] at h
  exact not_not.mp h

/-- The skeleton is empty only for the empty text. -/
theorem skel_eq_nil_iff {X : Str} : skel X = [] ↔ X = [] := by
  constructor
  · intro h
    cases X with
    | nil => rfl
    | cons c cs => exact absurd h (skel_head cs c).1
  · rintro rfl
    rfl

/-- The head of a `dropWhile` result fails the predicate. -/
theorem head_dropWhile_not {p : Char → Bool} {c : Char} {r : Str} :
    ∀ {l : Str}, l.dropWhile p = c :: r → p c = false := by
  intro l
  induction l with
  | nil => intro h; cases h
  | cons a l2 ih =>
    intro h
    rw [List.dropWhile_cons] at h
    split at h
    · exact ih h
    · rename_i hpa
      injection h with h1 h2
      subst h1
      simpa using hpa

/-- `matchAt` on a single character. -/
theorem matchAt_singleton (c : Char) : matchAt [c] = none := by
  unfold matchAt
  split
  · rename_i heq
    exact absurd (List.tail_eq_of_cons_eq heq) (by simp)
  · rfl

/-- `matchAt` and the skeleton: a text and its skeleton match identically,
with skeletons of the submatches and of the rest. -/
theorem matchAt_skel : ∀ x : Str,
    matchAt (skel x) = (matchAt x).map
      (fun pr => (⟨skel pr.1.target, skel pr.1.label⟩, skel pr.2)) := by
  intro x
  match x with
  | [] => rfl
  | [c] =>
    rw [matchAt_singleton]
    cases hc : special c with
    | true =>
      rw [skel_cons_special hc, skel_nil, matchAt_singleton]
      rfl
    | false =>
      rw [skel_single_nonspecial hc, matchAt_singleton]
      rfl
  | c :: d :: t =>
    by_cases hcd : c = '[' ∧ d = '['
    · obtain ⟨rfl, rfl⟩ := hcd
      rw [skel_cons_special (by decide), skel_cons_special (by decide)]
      have hTW := skel_takeWhile stopFree_of_nonspecial t
      have hDW := skel_dropWhile stopFree_of_nonspecial t
      by_cases ht : t.takeWhile stopFree = []
      · have ht2 : (skel t).takeWhile stopFree = [] := by rw [hTW, ht, skel_nil]
        simp only [matchAt]
        rw [if_pos ht2, if_pos ht]
        rfl
      · have ht2 : ¬(skel t).takeWhile stopFree = [] := by
          rw [hTW]
          exact fun hh => ht (skel_eq_nil_iff.mp hh)
        simp only [matchAt]
        rw [if_neg ht2, if_neg ht, hDW]
        cases hr1 : t.dropWhile stopFree with
        | nil => rw [skel_nil]; rfl
        | cons e1 rest1 =>
          rcases stopFree_false_cases (head_dropWhile_not hr1) with rfl | rfl
          · -- the rest after the target starts with a closer
            rw [skel_cons_special (by decide)]
            cases rest1 with
            | nil => rw [skel_nil]; rfl
            | cons e2 rest2 =>
              by_cases he2 : e2 = ']'
              · subst he2
                rw [skel_cons_special (by decide), hTW]
                rfl
              · obtain ⟨tl, htl⟩ := skel_shape e2 rest2
                rw [htl]
                have hh2 : (if special e2 = true then e2 else 'a') ≠ ']' := by
                  split
                  · exact he2
                  · decide
                split
                · rename_i heq
                  exact absurd (List.head_eq_of_cons_eq heq) (by decide)
                · rename_i heq
                  have h2 := List.head_eq_of_cons_eq (List.tail_eq_of_cons_eq heq)
                  exact absurd h2 hh2
                · split
                  · rename_i heq
                    exact absurd (List.head_eq_of_cons_eq heq) (by decide)
                  · rename_i heq
                    have h2 := List.head_eq_of_cons_eq (List.tail_eq_of_cons_eq heq)
                    exact absurd h2 he2
                  · rfl
          · -- the rest after the target starts with a label separator
            rw [skel_cons_special (by decide)]
            have hTW2 := skel_takeWhile labelFree_of_nonspecial rest1
            have hDW2 := skel_dropWhile labelFree_of_nonspecial rest1
            split
            · rename_i r2 heq
              injection heq with h1 h2
              subst h2
              symm
              split
              · rename_i heqb
                have hl2 : (skel rest1).takeWhile labelFree = [] := by
                  rw [hTW2, heqb, skel_nil]
                rw [if_pos hl2]
                rfl
              · rename_i heqb
                have hl2 : ¬(skel rest1).takeWhile labelFree = [] := by
                  rw [hTW2]
                  exact fun hh => heqb (skel_eq_nil_iff.mp hh)
                rw [if_neg hl2, hDW2]
                cases hr3 : rest1.dropWhile labelFree with
                | nil => rw [skel_nil]; rfl
                | cons e3 r3 =>
                  have he3 : e3 = ']' := labelFree_false_cases (head_dropWhile_not hr3)
                  subst he3
                  rw [skel_cons_special (by decide)]
                  cases r3 with
                  | nil => rw [skel_nil]; rfl
                  | cons e4 r4 =>
                    by_cases he4 : e4 = ']'
                    · subst he4
                      rw [skel_cons_special (by decide), hTW, hTW2]
                      rfl
                    · obtain ⟨tl, htl⟩ := skel_shape e4 r4
                      rw [htl]
                      have hh4 : (if special e4 = true then e4 else 'a') ≠ ']' := by
                        split
                        · exact he4
                        · decide
                      split
                      · rename_i heq2
                        have h2 := List.head_eq_of_cons_eq (List.tail_eq_of_cons_eq heq2)
                        exact absurd h2 he4
                      · split
                        · rename_i heq2
                          have h2 := List.head_eq_of_cons_eq (List.tail_eq_of_cons_eq heq2)
                          exact absurd h2 hh4
                        · rfl
            · rename_i heq
              exact absurd (List.head_eq_of_cons_eq heq) (by decide)
            · rename_i hne1 hne2
              exact absurd rfl (hne1 (skel rest1))
    · -- no occurrence can start here: the first two characters are not `[[`
      have hx : matchAt (c :: d :: t) = none := by
        unfold matchAt
        split
        · rename_i heq
          have h1 := List.head_eq_of_cons_eq heq
          have h2 := List.head_eq_of_cons_eq (List.tail_eq_of_cons_eq heq)
          exact absurd ⟨h1, h2⟩ hcd
        · rfl
      rw [hx]
      have hskel : matchAt (skel (c :: d :: t)) = none := by
        cases hc : special c with
        | true =>
          rw [skel_cons_special hc]
          by_cases hcb : c = '['
          · subst hcb
            obtain ⟨tl, htl⟩ := skel_shape d t
            rw [htl]
            have hd2 : (if special d = true then d else 'a') ≠ '[' := by
              split
              · exact fun hdd => hcd ⟨rfl, hdd⟩
              · decide
            unfold matchAt
            split
            · rename_i heq
              have h2 := List.head_eq_of_cons_eq (List.tail_eq_of_cons_eq heq)
              exact absurd h2 hd2
            · rfl
          · obtain ⟨tl, htl⟩ := skel_shape d t
            rw [htl]
            unfold matchAt
            split
            · rename_i heq
              exact absurd (List.head_eq_of_cons_eq heq) hcb
            · rfl
        | false =>
          obtain ⟨tl, htl⟩ := skel_shape c (d :: t)
          rw [htl, hc]
          simp only [Bool.false_eq_true, if_false]
          unfold matchAt
          split
          · rename_i heq
            exact absurd (List.head_eq_of_cons_eq heq) (by decide)
          · rfl
      rw [hskel]
      rfl
/-- `takeWhile`/`dropWhile` over a satisfying prefix followed by a
failing character. -/
theorem takeWhile_append_stop {p : Char → Bool} {A : Str} {b : Char}
    (hA : ∀ c ∈ A, p c = true) (hb : p b = false) (B : Str) :
    (A ++ b :: B).takeWhile p = A ∧ (A ++ b :: B).dropWhile p = b :: B := by
  induction A with
  | nil => simp [List.takeWhile_cons, List.dropWhile_cons, hb]
  | cons a A2 ih =>
    have hpa : p a = true := hA a (List.mem_cons_self _ _)
    have ih2 := ih (fun c hc => hA c (List.mem_cons_of_mem _ hc))
    simp only [List.cons_append, List.takeWhile_cons, List.dropWhile_cons, hpa,
      if_true, ih2.1, ih2.2]
    exact ⟨trivial, trivial⟩

/-- `wmRaw m ++ X` written with its two opening brackets exposed. -/
theorem wmRaw_append_eq (mm : WikiMatch) (X : Str) :
    wmRaw mm ++ X = '[' :: '[' :: (mm.target ++
      ((if mm.label = [] then str "]]" else '|' :: mm.label ++ str "]]") ++ X)) := by
  have h2 : str "[[" = ['[', '['] := rfl
  simp [wmRaw, h2, List.append_assoc]

/-- The raw text of a well-formed occurrence matches `linkRe` again in
front of any continuation, reproducing the occurrence and the
continuation.  This is the left-to-right re-parse step for rename
stability. -/
theorem matchAt_wmRaw {mm : WikiMatch} (ht : mm.target ≠ [])
    (htc : ∀ c ∈ mm.target, stopFree c = true)
    (hl : mm.label = [] ∨ ∀ c ∈ mm.label, labelFree c = true) :
    ∀ X, matchAt (wmRaw mm ++ X) = some (mm, X) := by
  obtain ⟨T, L⟩ := mm
  simp only at ht htc hl
  intro X
  have h3 : str "]]" = [']', ']'] := rfl
  rw [wmRaw_append_eq]
  simp only
  by_cases hL : L = []
  · subst hL
    rw [if_pos rfl, h3]
    have hsplit : ([']', ']'] : Str) ++ X = ']' :: ']' :: X := rfl
    rw [hsplit]
    have h1 := takeWhile_append_stop htc (show stopFree ']' = false by decide) (']' :: X)
    simp only [matchAt, h1.1, h1.2, if_neg ht]
  · rw [if_neg hL]
    have hassoc : ('|' :: L ++ str "]]") ++ X = '|' :: (L ++ (']' :: ']' :: X)) := by
      simp [h3, List.append_assoc]
    rw [hassoc]
    have h1 := takeWhile_append_stop htc (show stopFree '|' = false by decide)
      (L ++ (']' :: ']' :: X))
    simp only [matchAt, h1.1, h1.2, if_neg ht]
    have hLc : ∀ c ∈ L, labelFree c = true := hl.resolve_left hL
    have h4 := takeWhile_append_stop hLc (show labelFree ']' = false by decide) (']' :: X)
    split
    · rename_i heqb
      rw [h4.1] at heqb
      exact absurd heqb hL
    · rw [h4.1, h4.2]
      rfl

/-- `scan` of a well-formed raw occurrence in front of a continuation. -/
theorem scan_wmRaw_cons {mm : WikiMatch} (ht : mm.target ≠ [])
    (htc : ∀ c ∈ mm.target, stopFree c = true)
    (hl : mm.label = [] ∨ ∀ c ∈ mm.label, labelFree c = true) (X : Str) :
    scan (wmRaw mm ++ X) = .link mm :: scan X := by
  have hB := matchAt_wmRaw ht htc hl X
  rw [wmRaw_append_eq] at hB ⊢
  exact scan_cons_of_some hB

/-- A raw occurrence always ends with a closing bracket. -/
theorem wmRaw_ends_close (mm : WikiMatch) : ∃ A, wmRaw mm = A ++ [']'] := by
  have h3 : str "]]" = [']', ']'] := rfl
  by_cases hL : mm.label = []
  · exact ⟨str "[[" ++ mm.target ++ [']'], by simp [wmRaw, hL, h3, List.append_assoc]⟩
  · exact ⟨str "[[" ++ mm.target ++ '|' :: mm.label ++ [']'],
      by simp [wmRaw, hL, h3, List.append_assoc]⟩

/-- The skeleton of a raw occurrence splits off the continuation. -/
theorem skel_wmRaw_append (mm : WikiMatch) (X : Str) :
    skel (wmRaw mm ++ X) = skel (wmRaw mm) ++ skel X := by
  obtain ⟨A, hA⟩ := wmRaw_ends_close mm
  rw [hA, List.append_assoc]
  rw [show ([']'] : Str) ++ X = ']' :: X from rfl]
  exact skel_append_close A ']' X (by decide)

/-- Two raw occurrences with non-empty ordinary targets and the same label
have the same skeleton. -/
theorem skel_wmRaw_target {T T2 L : Str} (hT : T ≠ [])
    (hTn : ∀ c ∈ T, special c = false) (hT2 : T2 ≠ [])
    (hTn2 : ∀ c ∈ T2, special c = false) :
    skel (wmRaw ⟨T, L⟩) = skel (wmRaw ⟨T2, L⟩) := by
  have h2 : str "[[" = ['[', '['] := rfl
  have h3 : str "]]" = [']', ']'] := rfl
  by_cases hL : L = []
  · subst hL
    have e1 : wmRaw ⟨T, ([] : Str)⟩ = '[' :: '[' :: (T ++ ']' :: [']']) := by
      simp [wmRaw, h2, h3, List.append_assoc]
    have e2 : wmRaw ⟨T2, ([] : Str)⟩ = '[' :: '[' :: (T2 ++ ']' :: [']']) := by
      simp [wmRaw, h2, h3, List.append_assoc]
    rw [e1, e2, skel_cons_special (by decide), skel_cons_special (by decide),
      skel_cons_special (by decide), skel_cons_special (by decide),
      skel_run_append T ']' [']'] hT hTn (by decide),
      skel_run_append T2 ']' [']'] hT2 hTn2 (by decide)]
  · have e1 : wmRaw ⟨T, L⟩ = '[' :: '[' :: (T ++ '|' :: (L ++ str "]]")) := by
      simp [wmRaw, h2, hL, List.append_assoc]
    have e2 : wmRaw ⟨T2, L⟩ = '[' :: '[' :: (T2 ++ '|' :: (L ++ str "]]")) := by
      simp [wmRaw, h2, hL, List.append_assoc]
    rw [e1, e2, skel_cons_special (by decide), skel_cons_special (by decide),
      skel_cons_special (by decide), skel_cons_special (by decide),
      skel_run_append T '|' (L ++ str "]]") hT hTn (by decide),
      skel_run_append T2 '|' (L ++ str "]]") hT2 hTn2 (by decide)]

/-- `renameSeg` on a matching occurrence yields the raw text of the
occurrence with the new target and the old raw label. -/
theorem renameSeg_match {oldName newName : Str} {m : WikiMatch}
    (h : trimSpace m.target = oldName) :
    renameSeg oldName newName (.link m) = wmRaw ⟨newName, m.label⟩ := by
  by_cases hL : m.label = []
  · simp [renameSeg, h, hL, wmRaw]
  · simp [renameSeg, h, hL, wmRaw]

/-- `renameSeg` on a non-matching occurrence is its original raw text. -/
theorem renameSeg_nomatch {oldName newName : Str} {m : WikiMatch}
    (h : trimSpace m.target ≠ oldName) :
    renameSeg oldName newName (.link m) = wmRaw m := by
  simp [renameSeg, h]

/-- An ordinary head merges into the skeleton of the tail: the result is
determined by the tail's skeleton. -/
theorem skel_cons_nonspecial_eq {c : Char} (hc : special c = false) (X : Str) :
    skel (c :: X) = if (skel X).head? = some 'a' then skel X else 'a' :: skel X := by
  cases X with
  | nil => simp [skel_single_nonspecial hc, skel_nil]
  | cons d r =>
    cases hd : special d with
    | true =>
      rw [skel_cons2_ns_s hc hd, skel_cons_special hd]
      have hda : d ≠ 'a' := by
        intro h
        subst h
        exact absurd hd (by decide)
      simp [hda]
    | false =>
      rw [skel_cons2_ns_ns hc hd]
      have hh := (skel_head r d).2
      rw [hd] at hh
      simp only [Bool.false_eq_true, if_false] at hh
      rw [if_pos hh]

/-- Texts with equal skeletons keep equal skeletons under a common head. -/
theorem skel_cons_congr {X Y : Str} (c : Char) (h : skel X = skel Y) :
    skel (c :: X) = skel (c :: Y) := by
  cases hc : special c with
  | true => rw [skel_cons_special hc, skel_cons_special hc, h]
  | false => rw [skel_cons_nonspecial_eq hc, skel_cons_nonspecial_eq hc, h]
/-- Rename stability, by fuel on the text length: rewriting with two valid
identifiers preserves the skeleton, and the rewritten text re-scans into
exactly the renamed segments. -/
theorem renameWikilinks_aux {oldName newName : Str}
    (hold : isValidName oldName = true) (hnew : isValidName newName = true) :
    ∀ fuel : Nat, ∀ s : Str, s.length ≤ fuel →
      skel (renameWikilinks s oldName newName) = skel s ∧
      scan (renameWikilinks s oldName newName) =
        (scan s).map (renameMatch oldName newName) := by
  have hnewf := validName_facts hnew
  intro fuel
  induction fuel with
  | zero =>
    intro s hs
    have h0 : s = [] := List.length_eq_zero.mp (Nat.le_zero.mp hs)
    subst h0
    exact ⟨rfl, rfl⟩
  | succ k ih =>
    intro s hs
    cases s with
    | nil => exact ⟨rfl, rfl⟩
    | cons c cs =>
      simp only [List.length_cons] at hs
      cases hm : matchAt (c :: cs) with
      | none =>
        have hscan := scan_cons_of_none hm
        have hrw : renameWikilinks (c :: cs) oldName newName =
            c :: renameWikilinks cs oldName newName := by
          simp only [renameWikilinks, hscan, List.map_cons, List.flatten_cons]
          rfl
        obtain ⟨ihskel, ihscan⟩ := ih cs (by omega)
        refine ⟨?_, ?_⟩
        · rw [hrw]
          exact skel_cons_congr c ihskel
        · have h2 : matchAt (c :: renameWikilinks cs oldName newName) = none := by
            have e1 := matchAt_skel (c :: renameWikilinks cs oldName newName)
            rw [skel_cons_congr c ihskel, matchAt_skel (c :: cs), hm] at e1
            cases hmm : matchAt (c :: renameWikilinks cs oldName newName) with
            | none => rfl
            | some v =>
              rw [hmm] at e1
              simp at e1
          rw [hrw, scan_cons_of_none h2, hscan, ihscan, List.map_cons]
          rfl
      | some pr =>
        obtain ⟨m, rest⟩ := pr
        obtain ⟨htne, htcs, hlab, hseq, hlen⟩ := matchAt_spec hm
        have hscan := scan_cons_of_some hm
        have hrw : renameWikilinks (c :: cs) oldName newName =
            renameSeg oldName newName (.link m) ++
              renameWikilinks rest oldName newName := by
          simp only [renameWikilinks, hscan, List.map_cons, List.flatten_cons]
        obtain ⟨ihskel, ihscan⟩ :=
          ih rest (by simp only [List.length_cons] at hlen; omega)
        have hlab2 : m.label = [] ∨ ∀ c2 ∈ m.label, labelFree c2 = true :=
          hlab.imp id And.right
        by_cases htm : trimSpace m.target = oldName
        · have hTn : ∀ c2 ∈ m.target, special c2 = false :=
            trim_target_nonspecial htm hold
          have hT2 : newName ≠ [] := hnewf.1
          have hTn2 : ∀ c2 ∈ newName, special c2 = false :=
            fun c2 hc2 => (hnewf.2 c2 hc2).1
          refine ⟨?_, ?_⟩
          · rw [hrw, renameSeg_match htm, hseq, skel_wmRaw_append,
              skel_wmRaw_append, ihskel]
            rw [skel_wmRaw_target hT2 hTn2 htne hTn (L := m.label)]
          · rw [hrw, renameSeg_match htm]
            have hstop2 : ∀ c2 ∈ newName, stopFree c2 = true :=
              fun c2 hc2 => (hnewf.2 c2 hc2).2.1
            rw [@scan_wmRaw_cons ⟨newName, m.label⟩ hT2 hstop2 hlab2
              (renameWikilinks rest oldName newName), hscan, ihscan, List.map_cons]
            congr 1
            simp [renameMatch, htm]
        · refine ⟨?_, ?_⟩
          · rw [hrw, renameSeg_nomatch htm, hseq, skel_wmRaw_append,
              skel_wmRaw_append, ihskel]
          · rw [hrw, renameSeg_nomatch htm, scan_wmRaw_cons htne htcs hlab2 _,
              hscan, ihscan, List.map_cons]
            congr 1
            simp [renameMatch, htm]

/-- The text rewritten by `renameWikilinks` with valid identifiers scans
into exactly the renamed segments: matching occurrences targeted to the
new name, labels and everything else byte for byte unchanged. -/
theorem scan_renameWikilinks {oldName newName : Str}
    (hold : isValidName oldName = true) (hnew : isValidName newName = true)
    (s : Str) :
    scan (renameWikilinks s oldName newName) =
      (scan s).map (renameMatch oldName newName) :=
  (renameWikilinks_aux hold hnew s.length s le_rfl).2

/-- Membership in the link-set insertion. -/
theorem mem_addLink {acc : List Str} {t x : Str} :
    x ∈ addLink acc t ↔ x ∈ acc ∨ x = t := by
  unfold addLink
  split
  · rename_i h
    constructor
    · exact Or.inl
    · rintro (h2 | rfl)
      · exact h2
      · exact h
  · simp [List.mem_append]

/-- Membership in the accumulated link set. -/
theorem mem_collectLinks {x : Str} :
    ∀ (segs : List Seg) (acc : List Str),
    x ∈ collectLinks segs acc ↔
      x ∈ acc ∨ ∃ m, Seg.link m ∈ segs ∧ trimSpace m.target = x := by
  intro segs
  induction segs with
  | nil =>
    intro acc
    simp [collectLinks]
  | cons sg ss ih =>
    intro acc
    cases sg with
    | lit c =>
      rw [show collectLinks (Seg.lit c :: ss) acc = collectLinks ss acc from rfl, ih]
      constructor
      · rintro (h | ⟨m, hm, ht⟩)
        · exact Or.inl h
        · exact Or.inr ⟨m, List.mem_cons_of_mem _ hm, ht⟩
      · rintro (h | ⟨m, hm, ht⟩)
        · exact Or.inl h
        · rcases List.mem_cons.mp hm with heq | hm2
          · exact Seg.noConfusion heq
          · exact Or.inr ⟨m, hm2, ht⟩
    | link m0 =>
      rw [show collectLinks (Seg.link m0 :: ss) acc =
        collectLinks ss (addLink acc (trimSpace m0.target)) from rfl, ih, mem_addLink]
      constructor
      · rintro ((h | rfl) | ⟨m, hm, ht⟩)
        · exact Or.inl h
        · exact Or.inr ⟨m0, List.mem_cons_self _ _, rfl⟩
        · exact Or.inr ⟨m, List.mem_cons_of_mem _ hm, ht⟩
      · rintro (h | ⟨m, hm, ht⟩)
        · exact Or.inl (Or.inl h)
        · rcases List.mem_cons.mp hm with heq | hm2
          · injection heq with h2
            subst h2
            exact Or.inl (Or.inr ht.symm)
          · exact Or.inr ⟨m, hm2, ht⟩

/-- Membership in the extracted outbound link set. -/
theorem mem_extractLinks {x s : Str} :
    x ∈ extractLinks s ↔ ∃ m, Seg.link m ∈ scan s ∧ trimSpace m.target = x := by
  rw [show extractLinks s = collectLinks (scan s) [] from rfl, mem_collectLinks]
  simp

/-- A page that linked to the old name links to the new name after the
rewrite. -/
theorem extractLinks_rename_new {oldName newName s : Str}
    (hold : isValidName oldName = true) (hnew : isValidName newName = true)
    (h : oldName ∈ extractLinks s) :
    newName ∈ extractLinks (renameWikilinks s oldName newName) := by
  rw [mem_extractLinks] at h ⊢
  obtain ⟨m, hm, ht⟩ := h
  refine ⟨⟨newName, m.label⟩, ?_, trimSpace_of_validName hnew⟩
  rw [scan_renameWikilinks hold hnew]
  refine List.mem_map.mpr ⟨.link m, hm, ?_⟩
  simp [renameMatch, ht]

/-- After the rewrite no occurrence references the old name any more. -/
theorem extractLinks_rename_old {oldName newName s : Str}
    (hold : isValidName oldName = true) (hnew : isValidName newName = true)
    (hne : oldName ≠ newName) :
    oldName ∉ extractLinks (renameWikilinks s oldName newName) := by
  rw [mem_extractLinks]
  rintro ⟨m, hm, ht⟩
  rw [scan_renameWikilinks hold hnew] at hm
  obtain ⟨sg, hsg, heq⟩ := List.mem_map.mp hm
  cases sg with
  | lit c => simp [renameMatch] at heq
  | link m2 =>
    by_cases htm : trimSpace m2.target = oldName
    · have h3 : renameMatch oldName newName (.link m2) = .link ⟨newName, m2.label⟩ := by
        simp [renameMatch, htm]
      rw [h3] at heq
      injection heq with h2
      rw [← h2] at ht
      have ht2 : trimSpace newName = oldName := ht
      rw [trimSpace_of_validName hnew] at ht2
      exact hne ht2.symm
    · have h3 : renameMatch oldName newName (.link m2) = .link m2 := by
        simp [renameMatch, htm]
      rw [h3] at heq
      injection heq with h2
      rw [← h2] at ht
      exact htm ht

/-- Reading back a page file just written always succeeds and yields the
reloaded page of the written content. -/
theorem loadPage_write (fs : FS) (p C : Str) :
    loadPage (fsWrite fs p C) p = .ok (writtenPage p C) := by
  simp [loadPage, fsRead, fsWrite, alookup_ainsert_self, writtenPage]
/-- A map holding the reserved `"search"` key always survives
`buildBacklinks`, producing the transformed map. -/
theorem buildBacklinks_of_search {m : PageMap}
    (h : (alookup m (str "search")).isSome) :
    buildBacklinks m = some (m.map (fun e =>
      (e.1, { e.2 with Backlinks := sortFunc sortBacklinks (pageLinkers m e.1) }))) := by
  obtain ⟨v, hv⟩ := Option.isSome_iff_exists.mp h
  have hne : m ≠ [] := alookup_ne_nil hv
  have h1 : m.isEmpty = false := by
    cases m with
    | nil => exact absurd rfl hne
    | cons a l => rfl
  have h2 : (alookup m (str "search")).isNone = false := by rw [hv]; rfl
  simp [buildBacklinks, h1, h2]

/-- The rename propagation loop on a duplicate-free backlink list whose
every name is present: it succeeds, stores for each listed name the page
reloaded from its rewritten content, leaves every other binding unchanged,
and never drops a key. -/
theorem renameLoop_spec {dir oldName newName : Str} :
    ∀ (bs : List Str) (m : PageMap) (fs : FS),
    bs.Nodup →
    (∀ n ∈ bs, (alookup m n).isSome) →
    ∃ m' fs', renameLoop dir oldName newName bs m fs = (none, m', fs') ∧
      (∀ n ∈ bs, ∀ pn, alookup m n = some pn →
        alookup m' n = some (writtenPage (getPagePath dir n)
          (renameWikilinks pn.Raw oldName newName))) ∧
      (∀ k, k ∉ bs → alookup m' k = alookup m k) ∧
      (∀ k, (alookup m k).isSome → (alookup m' k).isSome) := by
  intro bs
  induction bs with
  | nil =>
    intro m fs _ _
    exact ⟨m, fs, rfl, by simp, fun k _ => rfl, fun k h => h⟩
  | cons n ns ih =>
    intro m fs hnd hall
    obtain ⟨pn0, hpn0⟩ := Option.isSome_iff_exists.mp (hall n (List.mem_cons_self n ns))
    have hnns : n ∉ ns := (List.nodup_cons.mp hnd).1
    have hnd2 : ns.Nodup := (List.nodup_cons.mp hnd).2
    have hload := loadPage_write fs (getPagePath dir n)
      (renameWikilinks pn0.Raw oldName newName)
    have hall2 : ∀ k ∈ ns, (alookup (ainsert m n (writtenPage (getPagePath dir n)
        (renameWikilinks pn0.Raw oldName newName))) k).isSome := by
      intro k hk
      have hkn : k ≠ n := fun h => hnns (h ▸ hk)
      rw [alookup_ainsert_ne _ hkn]
      exact hall k (List.mem_cons_of_mem _ hk)
    obtain ⟨m', fs', heq, hc1, hc2, hc3⟩ := ih (ainsert m n (writtenPage (getPagePath dir n)
        (renameWikilinks pn0.Raw oldName newName)))
      (fsWrite fs (getPagePath dir n) (renameWikilinks pn0.Raw oldName newName))
      hnd2 hall2
    refine ⟨m', fs', ?_, ?_, ?_, ?_⟩
    · show renameLoop dir oldName newName (n :: ns) m fs = (none, m', fs')
      simp only [renameLoop, hpn0, hload]
      exact heq
    · intro k hk pn hpn
      rcases List.mem_cons.mp hk with rfl | hk2
      · have hpe : pn = pn0 := by
          rw [hpn] at hpn0
          exact Option.some_inj.mp hpn0
        subst hpe
        rw [hc2 k hnns, alookup_ainsert_self]
      · have hkn : k ≠ n := by
          rintro rfl
          exact hnns hk2
        exact hc1 k hk2 pn (by rw [alookup_ainsert_ne _ hkn]; exact hpn)
    · intro k hknot
      have hkn : k ≠ n := fun h => hknot (h ▸ List.mem_cons_self n ns)
      have hkns : k ∉ ns := fun h => hknot (List.mem_cons_of_mem _ h)
      rw [hc2 k hkns, alookup_ainsert_ne _ hkn]
    · intro k hks
      apply hc3
      by_cases hkn : k = n
      · subst hkn
        rw [alookup_ainsert_self]
        rfl
      · rw [alookup_ainsert_ne _ hkn]
        exact hks

/--
C1: after a successful `RenamePage(oldName, newName)` (valid distinct
names, the renamed page present in the map and on disk, the reserved
`"search"` page present, the backlink list duplicate-free with every
listed page present and distinct from both names), every page listed in
the renamed page's `Backlinks` has its raw content rewritten by
`renameWikilinks`: its new scan is the old scan with exactly the
occurrences whose trimmed target was `oldName` retargeted to `newName`,
labels preserved byte for byte, and no occurrence referencing `oldName`
remains; and the page stored under `newName` lists in its `Backlinks`
every backlinking page that referenced `oldName`.
-/
theorem c1_rename_propagation {w : Wiki} {fs : FS} {oldName newName : Str}
    {pOld : Page} {c0 : Str}
    (hvo : isValidName oldName = true) (hvn : isValidName newName = true)
    (hon : oldName ≠ newName)
    (hpOld : alookup w.Pages oldName = some pOld)
    (hdisk : alookup fs (getPagePath w.Dir oldName) = some c0)
    (hsearch : (alookup w.Pages (str "search")).isSome)
    (hos : oldName ≠ str "search") (hns : newName ≠ str "search")
    (hnodup : pOld.Backlinks.Nodup)
    (hbl : ∀ n ∈ pOld.Backlinks,
      n ≠ oldName ∧ n ≠ newName ∧ (alookup w.Pages n).isSome) :
    ∃ w' fs', renamePage w oldName newName fs = (none, w', fs') ∧
      (∀ n ∈ pOld.Backlinks, ∀ pn, alookup w.Pages n = some pn →
        ∃ p2, alookup w'.Pages n = some p2 ∧
          p2.Raw = renameWikilinks pn.Raw oldName newName ∧
          scan p2.Raw = (scan pn.Raw).map (renameMatch oldName newName) ∧
          oldName ∉ extractLinks p2.Raw) ∧
      (∃ pc, alookup w'.Pages newName = some pc ∧
        ∀ n ∈ pOld.Backlinks, ∀ pn, alookup w.Pages n = some pn →
          oldName ∈ extractLinks pn.Raw → n ∈ pc.Backlinks) := by
  have hren : fsRename fs (getPagePath w.Dir oldName) (getPagePath w.Dir newName)
      = some (ainsert (aerase fs (getPagePath w.Dir oldName))
          (getPagePath w.Dir newName) c0) := by
    simp [fsRename, hdisk]
  have hmovedNew : alookup (renameMoved w.Pages oldName newName pOld) newName
      = some pOld := by
    unfold renameMoved
    rw [alookup_aerase_ne (Ne.symm hon), alookup_ainsert_self]
  have hmovedSearch :
      (alookup (renameMoved w.Pages oldName newName pOld) (str "search")).isSome := by
    unfold renameMoved
    rw [alookup_aerase_ne (Ne.symm hos), alookup_ainsert_ne _ (Ne.symm hns)]
    exact hsearch
  have hmovedBl : ∀ n ∈ pOld.Backlinks,
      (alookup (renameMoved w.Pages oldName newName pOld) n).isSome := by
    intro n hn
    obtain ⟨hn1, hn2, hn3⟩ := hbl n hn
    unfold renameMoved
    rw [alookup_aerase_ne hn1, alookup_ainsert_ne _ hn2]
    exact hn3
  obtain ⟨m', fs', hloop, hc1, hc2, hc3⟩ := @renameLoop_spec w.Dir oldName newName
    pOld.Backlinks (renameMoved w.Pages oldName newName pOld)
    (ainsert (aerase fs (getPagePath w.Dir oldName)) (getPagePath w.Dir newName) c0)
    hnodup hmovedBl
  have hsearch2 : (alookup m' (str "search")).isSome := hc3 _ hmovedSearch
  have hbb := buildBacklinks_of_search hsearch2
  have heq : renamePage w oldName newName fs =
      (none, { w with Pages := m'.map (fun e =>
        (e.1, { e.2 with Backlinks := sortFunc sortBacklinks (pageLinkers m' e.1) })) },
        fs') := by
    simp only [renamePage, hren, hpOld, hmovedNew, hloop, hbb]
  refine ⟨_, fs', heq, ?_, ?_⟩
  · intro n hn pn hpn
    obtain ⟨hn1, hn2, hn3⟩ := hbl n hn
    have hpn2 : alookup (renameMoved w.Pages oldName newName pOld) n = some pn := by
      unfold renameMoved
      rw [alookup_aerase_ne hn1, alookup_ainsert_ne _ hn2]
      exact hpn
    have hm'n := hc1 n hn pn hpn2
    have hfin := buildBacklinks_lookup hbb n
    rw [hm'n] at hfin
    simp only [Option.map_some'] at hfin
    refine ⟨_, hfin, rfl, ?_, ?_⟩
    · exact scan_renameWikilinks hvo hvn pn.Raw
    · exact extractLinks_rename_old hvo hvn hon
  · have hnotbl : newName ∉ pOld.Backlinks := fun hmem =>
      absurd rfl (hbl newName hmem).2.1
    have hm'new : alookup m' newName = some pOld := by
      rw [hc2 newName hnotbl]
      exact hmovedNew
    have hfin := buildBacklinks_lookup hbb newName
    rw [hm'new] at hfin
    simp only [Option.map_some'] at hfin
    refine ⟨_, hfin, ?_⟩
    intro n hn pn hpn hlink
    obtain ⟨hn1, hn2, hn3⟩ := hbl n hn
    have hpn2 : alookup (renameMoved w.Pages oldName newName pOld) n = some pn := by
      unfold renameMoved
      rw [alookup_aerase_ne hn1, alookup_ainsert_ne _ hn2]
      exact hpn
    have hm'n := hc1 n hn pn hpn2
    have hmem := alookup_mem hm'n
    show n ∈ sortFunc sortBacklinks (pageLinkers m' newName)
    apply mem_sortFunc.mpr
    refine mem_pageLinkers_of_links hns hmem ?_
    exact extractLinks_rename_new hvo hvn hlink

/--
C1 witness: the claim's own instance.  Pages `A` (raw `"link to [[B]]"`),
`B` (backlinks `["A"]`) and `search`; after `RenamePage("B", "C")` the
operation succeeds, `A`'s entry holds the rewritten raw content — which is
concretely `"link to [[C]]"` — and the page stored under `"C"` has `"A"`
in its backlinks.
-/
theorem c1_rename_propagation_witness :
    isValidName (str "B") = true ∧ isValidName (str "C") = true ∧
    str "B" ≠ str "C" ∧
    alookup ([(str "A", mkPage (str "A") (str "link to [[B]]") [str "B"] []),
      (str "B", mkPage (str "B") (str "x") [] [str "A"]),
      (str "search", mkPage (str "search") (str "# Search") [] [])] : PageMap)
      (str "B") = some (mkPage (str "B") (str "x") [] [str "A"]) ∧
    renameWikilinks (str "link to [[B]]") (str "B") (str "C") = str "link to [[C]]" ∧
    str "B" ∈ extractLinks (str "link to [[B]]") ∧
    (∃ w' fs',
      renamePage
        ⟨[(str "A", mkPage (str "A") (str "link to [[B]]") [str "B"] []),
          (str "B", mkPage (str "B") (str "x") [] [str "A"]),
          (str "search", mkPage (str "search") (str "# Search") [] [])], str "d"⟩
        (str "B") (str "C")
        [(str "d/A.md", str "link to [[B]]"), (str "d/B.md", str "x")]
        = (none, w', fs') ∧
      (∀ n ∈ (mkPage (str "B") (str "x") [] [str "A"]).Backlinks, ∀ pn,
        alookup ([(str "A", mkPage (str "A") (str "link to [[B]]") [str "B"] []),
          (str "B", mkPage (str "B") (str "x") [] [str "A"]),
          (str "search", mkPage (str "search") (str "# Search") [] [])] : PageMap) n
          = some pn →
        ∃ p2, alookup w'.Pages n = some p2 ∧
          p2.Raw = renameWikilinks pn.Raw (str "B") (str "C") ∧
          scan p2.Raw = (scan pn.Raw).map (renameMatch (str "B") (str "C")) ∧
          str "B" ∉ extractLinks p2.Raw) ∧
      (∃ pc, alookup w'.Pages (str "C") = some pc ∧
        ∀ n ∈ (mkPage (str "B") (str "x") [] [str "A"]).Backlinks, ∀ pn,
          alookup ([(str "A", mkPage (str "A") (str "link to [[B]]") [str "B"] []),
            (str "B", mkPage (str "B") (str "x") [] [str "A"]),
            (str "search", mkPage (str "search") (str "# Search") [] [])] : PageMap) n
            = some pn →
          str "B" ∈ extractLinks pn.Raw → n ∈ pc.Backlinks)) :=
  ⟨by decide, by decide, by decide, by decide, by decide, by decide,
    c1_rename_propagation (by decide) (by decide) (by decide) (by decide)
      (by decide : alookup [(str "d/A.md", str "link to [[B]]"),
        (str "d/B.md", str "x")] (getPagePath (str "d") (str "B")) = some (str "x"))
      (by decide) (by decide) (by decide) (by decide) (by decide)⟩
end Candl
